import Mathlib

/-!
Verification of the curiam span-annotation core.

Python strings are modelled as lists of characters (`List Char`); Python
integers as `Int`; fallible Python code (code that can raise) as
`Option`-valued functions.  The definitions below are shallow embeddings of
the functions in `src/curiam/inception/tsv_processing.py` and
`src/curiam/document.py`.
-/

set_option autoImplicit false

namespace Curiam

/-! ### Python string primitives -/

/-- Python str.split with a single-character separator. -/
def splitOnChar (sep : Char) : List Char → List (List Char)
  | [] => [[]]
  | c :: rest =>
    if c = sep then [] :: splitOnChar sep rest
    else
      match splitOnChar sep rest with
      | [] => [[c]]
      | r :: rs => (c :: r) :: rs

/-- Join chunks with a single-character separator (inverse of `splitOnChar`). -/
def joinChar (sep : Char) : List (List Char) → List Char
  | [] => []
  | [p] => p
  | p :: ps => p ++ sep :: joinChar sep ps

/-- Position of the first occurrence of a character; `none` when absent
(Python `str.index` raises there). -/
def indexOfChar? (c : Char) : List Char → Option Nat
  | [] => none
  | x :: rest => if x = c then some 0 else (indexOfChar? c rest).map (· + 1)

/-- Test whether `pat` occurs at the head of `hay`. -/
def listStarts : List Char → List Char → Bool
  | [], _ => true
  | _ :: _, [] => false
  | p :: ps, h :: hs => p == h && listStarts ps hs

/-- Python substring containment, `pat in hay`. -/
def hasSub (pat : List Char) : List Char → Bool
  | [] => listStarts pat []
  | h :: hs => listStarts pat (h :: hs) || hasSub pat hs

/-- Characters Python's int() strips from both ends of its argument. -/
def isPySpace (c : Char) : Bool :=
  c == ' ' || c == '\t' || c == '\n' || c == '\r' || c == Char.ofNat 11 || c == Char.ofNat 12

/-- Strip Python whitespace from both ends. -/
def stripWs (s : List Char) : List Char :=
  ((s.dropWhile isPySpace).reverse.dropWhile isPySpace).reverse

/-- Numeric value of an ASCII digit character. -/
def digitVal (c : Char) : Nat := c.toNat - 48

/-- Tail of a Python int literal: digits with single underscores allowed
between digits, accumulating the value. -/
def pyDigitsCore : Nat → List Char → Option Nat
  | acc, [] => some acc
  | acc, c :: rest =>
    if c.isDigit then pyDigitsCore (acc * 10 + digitVal c) rest
    else if c = '_' then
      match rest with
      | [] => none
      | c2 :: rest2 => if c2.isDigit then pyDigitsCore (acc * 10 + digitVal c2) rest2 else none
    else none

/-- Digit part of a Python int literal: at least one digit, underscores only
between digits. -/
def pyDigits : List Char → Option Nat
  | [] => none
  | c :: rest => if c.isDigit then pyDigitsCore (digitVal c) rest else none

/-- Python's int() on a string, as a partial function: strip whitespace,
optional sign, then a digit group. -/
def pyInt (s : List Char) : Option Int :=
  match stripWs s with
  | [] => none
  | c :: rest =>
    if c = '+' then (pyDigits rest).map Int.ofNat
    else if c = '-' then (pyDigits rest).map (fun n => -(n : Int))
    else (pyDigits (c :: rest)).map Int.ofNat

/-- Fuelled decimal rendering; the fuel only drives structural recursion and
is irrelevant as long as it dominates the argument. -/
def natToCharsFuel : Nat → Nat → List Char
  | 0, n => [Char.ofNat (48 + n % 10)]
  | fuel + 1, n =>
    if n < 10 then [Char.ofNat (48 + n)]
    else natToCharsFuel fuel (n / 10) ++ [Char.ofNat (48 + n % 10)]

/-- Decimal digit string of a natural number (Python str of a non-negative int). -/
def natToChars (n : Nat) : List Char := natToCharsFuel n n

/-- Python str of an int. -/
def intToChars (i : Int) : List Char :=
  if i < 0 then '-' :: natToChars i.natAbs else natToChars i.toNat

/-! ### Compound label parser, from tsv_processing.process_compound_label -/

/-- Loop body of `process_compound_label` over the sub-labels of a split
label, in sub-label order.  A sub-label without an opening bracket yields
itself with sentinel id -1; otherwise the category is the text before the
first bracket and the id is Python int() of the text strictly between the
first bracket and the last character. -/
def pclSub (sublabel : List Char) : Option (List Char × Int) :=
  if sublabel.contains '[' then
    match indexOfChar? '[' sublabel with
    | none => none
    | some bi =>
      match pyInt ((sublabel.drop (bi + 1)).dropLast) with
      | none => none
      | some n => some (sublabel.take bi, n)
  else some (sublabel, (-1 : Int))

def pclGo : List (List Char) → Option (List (List Char) × List Int)
  | [] => some ([], [])
  | sublabel :: rest =>
    match pclSub sublabel, pclGo rest with
    | some pair, some tailPairs => some (pair.1 :: tailPairs.1, pair.2 :: tailPairs.2)
    | _, _ => none

/-- Shallow embedding of tsv_processing.process_compound_label.  Returns
`none` where the Python function raises, namely when int() fails on the
bracket content of some sub-label. -/
def process_compound_label (label : List Char) : Option (List (List Char) × List Int) :=
  pclGo (splitOnChar '|' label)

example : process_compound_label ("A[3]|B[3]|C[7]".toList)
    = some (["A".toList, "B".toList, "C".toList], [3, 3, 7]) := by decide

example : process_compound_label ("Metalinguistic Cue".toList)
    = some (["Metalinguistic Cue".toList], [-1]) := by decide

example : process_compound_label ("A[x]".toList) = none := by decide

/-! ### Lemmas about the string primitives -/

theorem char_toNat_ofNat (n : Nat) (h : n < 55296) : (Char.ofNat n).toNat = n := by
  have hv : n.isValidChar := Or.inl h
  simp [Char.ofNat, Char.toNat, hv, Char.ofNatAux, UInt32.toNat, BitVec.toNat_ofNatLt,
    UInt32.ofNatCore]

theorem splitOnChar_no_sep (sep : Char) (p : List Char) (h : sep ∉ p) :
    splitOnChar sep p = [p] := by
  induction p with
  | nil => rfl
  | cons c rest ih =>
    have hc : ¬ c = sep := fun hcs => h (hcs ▸ List.mem_cons_self c rest)
    have hr : sep ∉ rest := fun hm => h (List.mem_cons_of_mem c hm)
    simp [splitOnChar, hc, ih hr]

theorem splitOnChar_sep_append (sep : Char) (p rest : List Char) (h : sep ∉ p) :
    splitOnChar sep (p ++ sep :: rest) = p :: splitOnChar sep rest := by
  induction p with
  | nil => simp [splitOnChar]
  | cons c p' ih =>
    have hc : ¬ c = sep := fun hcs => h (hcs ▸ List.mem_cons_self c p')
    have hp : sep ∉ p' := fun hm => h (List.mem_cons_of_mem c hm)
    simp [splitOnChar, hc, ih hp]

theorem splitOnChar_joinChar (sep : Char) (parts : List (List Char)) (hne : parts ≠ [])
    (h : ∀ p ∈ parts, sep ∉ p) :
    splitOnChar sep (joinChar sep parts) = parts := by
  induction parts with
  | nil => exact absurd rfl hne
  | cons p ps ih =>
    cases ps with
    | nil => exact splitOnChar_no_sep sep p (h p (List.mem_cons_self p []))
    | cons q qs =>
      have hp : sep ∉ p := h p (List.mem_cons_self p (q :: qs))
      have hrec := ih (by simp) (fun r hr => h r (List.mem_cons_of_mem p hr))
      show splitOnChar sep (p ++ sep :: joinChar sep (q :: qs)) = p :: q :: qs
      rw [splitOnChar_sep_append sep p _ hp, hrec]

theorem natToCharsFuel_irrel (f1 : Nat) : ∀ f2 n, n ≤ f1 → n ≤ f2 →
    natToCharsFuel f1 n = natToCharsFuel f2 n := by
  induction f1 with
  | zero =>
    intro f2 n h1 h2
    have hn : n = 0 := Nat.le_zero.1 h1
    subst hn
    cases f2 with
    | zero => rfl
    | succ f => simp [natToCharsFuel]
  | succ f ih =>
    intro f2 n h1 h2
    cases f2 with
    | zero =>
      have hn : n = 0 := Nat.le_zero.1 h2
      subst hn
      simp [natToCharsFuel]
    | succ g =>
      simp only [natToCharsFuel]
      split
      · rfl
      · next h10 =>
        have hd : n / 10 < n := Nat.div_lt_self (by omega) (by omega)
        rw [ih g (n / 10) (by omega) (by omega)]

theorem natToChars_eq (n : Nat) :
    natToChars n = if n < 10 then [Char.ofNat (48 + n)]
      else natToChars (n / 10) ++ [Char.ofNat (48 + n % 10)] := by
  cases n with
  | zero => simp [natToChars, natToCharsFuel]
  | succ m =>
    show natToCharsFuel (m + 1) (m + 1) = _
    simp only [natToCharsFuel]
    split
    · rfl
    · next h =>
      have hd : (m + 1) / 10 < m + 1 := Nat.div_lt_self (by omega) (by omega)
      rw [natToCharsFuel_irrel m ((m + 1) / 10) ((m + 1) / 10) (by omega) (Nat.le_refl _)]
      rfl

theorem charOfDigit_isDigit (d : Nat) (h : d < 10) :
    (Char.ofNat (48 + d)).isDigit = true := by
  interval_cases d <;> decide

theorem digitVal_charOfDigit (d : Nat) (h : d < 10) :
    digitVal (Char.ofNat (48 + d)) = d := by
  interval_cases d <;> decide

theorem natToChars_ne_nil (n : Nat) : natToChars n ≠ [] := by
  rw [natToChars_eq]
  split <;> simp

theorem natToChars_all_digits (n : Nat) : ∀ c ∈ natToChars n, c.isDigit = true := by
  induction n using Nat.strong_induction_on with
  | _ n ih =>
    rw [natToChars_eq]
    split
    · next h =>
      intro c hc
      simp only [List.mem_singleton] at hc
      exact hc ▸ charOfDigit_isDigit n h
    · next h =>
      intro c hc
      rcases List.mem_append.1 hc with hm | hm
      · exact ih (n / 10) (Nat.div_lt_self (by omega) (by omega)) c hm
      · simp only [List.mem_singleton] at hm
        exact hm ▸ charOfDigit_isDigit (n % 10) (Nat.mod_lt n (by omega))

theorem pyDigitsCore_all_digits (l : List Char) (acc : Nat)
    (h : ∀ c ∈ l, c.isDigit = true) :
    pyDigitsCore acc l = some (l.foldl (fun a c => a * 10 + digitVal c) acc) := by
  induction l generalizing acc with
  | nil => rfl
  | cons c rest ih =>
    have hc : c.isDigit = true := h c (List.mem_cons_self c rest)
    unfold pyDigitsCore
    simp only [hc, if_true, List.foldl_cons]
    exact ih _ (fun x hx => h x (List.mem_cons_of_mem c hx))

theorem foldl_natToChars (n : Nat) :
    (natToChars n).foldl (fun a c => a * 10 + digitVal c) 0 = n := by
  induction n using Nat.strong_induction_on with
  | _ n ih =>
    rw [natToChars_eq]
    split
    · next h =>
      simp [digitVal_charOfDigit n h]
    · next h =>
      rw [List.foldl_append]
      rw [ih (n / 10) (Nat.div_lt_self (by omega) (by omega))]
      simp only [List.foldl_cons, List.foldl_nil]
      rw [digitVal_charOfDigit (n % 10) (Nat.mod_lt n (by omega))]
      omega

theorem pyDigits_natToChars (n : Nat) : pyDigits (natToChars n) = some n := by
  rcases hs : natToChars n with _ | ⟨c, rest⟩
  · exact absurd hs (natToChars_ne_nil n)
  · have hall : ∀ x ∈ natToChars n, x.isDigit = true := natToChars_all_digits n
    have hc : c.isDigit = true := hall c (hs ▸ List.mem_cons_self c rest)
    have hrest : ∀ x ∈ rest, x.isDigit = true :=
      fun x hx => hall x (hs ▸ List.mem_cons_of_mem c hx)
    simp only [pyDigits, hc, if_true]
    rw [pyDigitsCore_all_digits rest (digitVal c) hrest]
    have hfold : (natToChars n).foldl (fun a c => a * 10 + digitVal c) 0 = n :=
      foldl_natToChars n
    rw [hs] at hfold
    simp only [List.foldl_cons, Nat.zero_mul, Nat.zero_add] at hfold
    rw [hfold]

theorem isPySpace_of_digit (c : Char) (h : c.isDigit = true) : isPySpace c = false := by
  by_cases h1 : c = ' '
  · rw [h1] at h; exact absurd h (by decide)
  by_cases h2 : c = '\t'
  · rw [h2] at h; exact absurd h (by decide)
  by_cases h3 : c = '\n'
  · rw [h3] at h; exact absurd h (by decide)
  by_cases h4 : c = '\r'
  · rw [h4] at h; exact absurd h (by decide)
  by_cases h5 : c = Char.ofNat 11
  · rw [h5] at h; exact absurd h (by decide)
  by_cases h6 : c = Char.ofNat 12
  · rw [h6] at h; exact absurd h (by decide)
  simp [isPySpace, h1, h2, h3, h4, h5, h6]

theorem dropWhile_eq_self_of_none (l : List Char) (p : Char → Bool)
    (h : ∀ c ∈ l, p c = false) : l.dropWhile p = l := by
  cases l with
  | nil => rfl
  | cons c rest => simp [List.dropWhile, h c (List.mem_cons_self c rest)]

theorem stripWs_of_digits (l : List Char) (h : ∀ c ∈ l, c.isDigit = true) :
    stripWs l = l := by
  unfold stripWs
  rw [dropWhile_eq_self_of_none l _ (fun c hc => isPySpace_of_digit c (h c hc))]
  rw [dropWhile_eq_self_of_none l.reverse _
    (fun c hc => isPySpace_of_digit c (h c (List.mem_reverse.1 hc)))]
  exact List.reverse_reverse l

theorem pyInt_natToChars (n : Nat) : pyInt (natToChars n) = some (n : Int) := by
  have hst : stripWs (natToChars n) = natToChars n :=
    stripWs_of_digits _ (natToChars_all_digits n)
  rcases hs : natToChars n with _ | ⟨c, rest⟩
  · exact absurd hs (natToChars_ne_nil n)
  · have hc : c.isDigit = true := natToChars_all_digits n c (hs ▸ List.mem_cons_self c rest)
    have hplus : ¬ c = '+' := by intro h; rw [h] at hc; exact absurd hc (by decide)
    have hminus : ¬ c = '-' := by intro h; rw [h] at hc; exact absurd hc (by decide)
    have hpd : pyDigits (natToChars n) = some n := pyDigits_natToChars n
    rw [hs] at hpd hst
    simp [pyInt, hst, hplus, hminus, hpd]

theorem pyInt_intToChars (i : Int) (h : 0 ≤ i) : pyInt (intToChars i) = some i := by
  have hneg : ¬ i < 0 := by omega
  rw [intToChars, if_neg hneg, pyInt_natToChars, Int.toNat_of_nonneg h]

theorem natToChars_injective (n m : Nat) (h : natToChars n = natToChars m) : n = m := by
  have h1 := pyDigits_natToChars n
  rw [h, pyDigits_natToChars m] at h1
  exact (Option.some_inj.1 h1).symm

theorem indexOfChar_first (ch : Char) (c t : List Char) (hc : ch ∉ c) :
    indexOfChar? ch (c ++ ch :: t) = some c.length := by
  induction c with
  | nil => simp [indexOfChar?]
  | cons x c' ih =>
    have hx : ¬ x = ch := fun he => hc (he ▸ List.mem_cons_self x c')
    have hr : ch ∉ c' := fun hm => hc (List.mem_cons_of_mem x hm)
    simp [indexOfChar?, hx, ih hr]

theorem indexOfChar_isSome (ch : Char) (l : List Char) (h : ch ∈ l) :
    ∃ i, indexOfChar? ch l = some i := by
  induction l with
  | nil => exact absurd h (List.not_mem_nil ch)
  | cons x rest ih =>
    by_cases hx : x = ch
    · exact ⟨0, by simp [indexOfChar?, hx]⟩
    · have hm : ch ∈ rest := by
        rcases List.mem_cons.1 h with he | hm
        · exact absurd he.symm hx
        · exact hm
      obtain ⟨i, hi⟩ := ih hm
      exact ⟨i + 1, by simp [indexOfChar?, hx, hi]⟩

theorem bracket_decomp_unique (c : List Char) : ∀ c0 t t0 : List Char,
    '[' ∉ c → '[' ∉ c0 → c ++ '[' :: t = c0 ++ '[' :: t0 → c = c0 ∧ t = t0 := by
  induction c with
  | nil =>
    intro c0 t t0 _ hc0 h
    cases c0 with
    | nil => simpa using h
    | cons x c0' =>
      simp only [List.nil_append, List.cons_append, List.cons.injEq] at h
      obtain ⟨hx, _⟩ := h
      exact absurd (hx ▸ List.mem_cons_self x c0') hc0
  | cons x c' ih =>
    intro c0 t t0 hc hc0 h
    cases c0 with
    | nil =>
      simp only [List.cons_append, List.nil_append, List.cons.injEq] at h
      obtain ⟨hx, _⟩ := h
      exact absurd (hx ▸ List.mem_cons_self x c') hc
    | cons y c0' =>
      simp only [List.cons_append, List.cons.injEq] at h
      obtain ⟨hxy, htail⟩ := h
      have hc' : '[' ∉ c' := fun hm => hc (List.mem_cons_of_mem x hm)
      have hc0' : '[' ∉ c0' := fun hm => hc0 (List.mem_cons_of_mem y hm)
      obtain ⟨h1, h2⟩ := ih c0' t t0 hc' hc0' htail
      exact ⟨by rw [hxy, h1], h2⟩

/-! ### Claim C3: shape of the compound label parser output -/

/-- Well-formedness of a sub-label as the specification describes it: either
no opening bracket at all, or of the shape Category[N] with the category
holding no bracket. -/
def SubLabelWf (s : List Char) : Prop :=
  '[' ∉ s ∨ ∃ c n, s = c ++ '[' :: (natToChars n ++ [']']) ∧ '[' ∉ c

/-- Relation between a sub-label and the (category, id) pair the parser is
specified to produce for it. -/
def SubRel (s : List Char) (pr : List Char × Int) : Prop :=
  ('[' ∉ s → pr = (s, -1)) ∧
  (∀ c n, s = c ++ '[' :: (natToChars n ++ [']']) → '[' ∉ c → pr = (c, (n : Int)))

theorem pclSub_nobracket (s : List Char) (hno : '[' ∉ s) :
    pclSub s = some (s, -1) := by
  have hcont : ¬ (s.contains '[' = true) := fun h => hno (List.elem_iff.1 h)
  rw [pclSub, if_neg hcont]

theorem pclSub_bracket (c : List Char) (n : Nat) (hc : '[' ∉ c) :
    pclSub (c ++ '[' :: (natToChars n ++ [']'])) = some (c, (n : Int)) := by
  have hmem : '[' ∈ c ++ '[' :: (natToChars n ++ [']']) :=
    List.mem_append.2 (Or.inr (List.mem_cons_self _ _))
  have hcont : (c ++ '[' :: (natToChars n ++ [']'])).contains '[' = true :=
    List.elem_iff.2 hmem
  have hidx : indexOfChar? '[' (c ++ '[' :: (natToChars n ++ [']'])) = some c.length :=
    indexOfChar_first '[' c _ hc
  have htake : (c ++ '[' :: (natToChars n ++ [']'])).take c.length = c := by simp
  have hdrop : ((c ++ '[' :: (natToChars n ++ [']'])).drop (c.length + 1)).dropLast
      = natToChars n := by
    simp [List.drop_append]
  rw [pclSub, if_pos hcont, hidx]
  simp only [hdrop, pyInt_natToChars, htake]

theorem pclGo_wf (parts : List (List Char)) (hwf : ∀ p ∈ parts, SubLabelWf p) :
    ∃ prs : List (List Char × Int),
      pclGo parts = some prs.unzip ∧ List.Forall₂ SubRel parts prs := by
  induction parts with
  | nil => exact ⟨[], rfl, List.Forall₂.nil⟩
  | cons s rest ih =>
    obtain ⟨prs, hps, hrel⟩ := ih (fun p hp => hwf p (List.mem_cons_of_mem s hp))
    rcases hwf s (List.mem_cons_self s rest) with hno | ⟨c, n, hs, hc⟩
    · refine ⟨(s, -1) :: prs, ?_, ?_⟩
      · simp [pclGo, pclSub_nobracket s hno, hps, List.unzip_cons]
      · refine List.Forall₂.cons ⟨fun _ => rfl, ?_⟩ hrel
        intro c n hsdec _
        have : '[' ∈ s := by
          rw [hsdec]
          exact List.mem_append.2 (Or.inr (List.mem_cons_self _ _))
        exact absurd this hno
    · refine ⟨(c, (n : Int)) :: prs, ?_, ?_⟩
      · rw [hs]
        simp [pclGo, pclSub_bracket c n hc, hps, List.unzip_cons]
      · refine List.Forall₂.cons ⟨?_, ?_⟩ hrel
        · intro hno
          have : '[' ∈ s := by
            rw [hs]
            exact List.mem_append.2 (Or.inr (List.mem_cons_self _ _))
          exact absurd this hno
        · intro c0 n0 hs0 hc0
          rw [hs] at hs0
          obtain ⟨he1, he2⟩ := bracket_decomp_unique c c0 _ _ hc hc0 hs0
          have he3 : natToChars n = natToChars n0 := by
            have := congrArg List.dropLast he2
            simpa using this
          rw [he1, natToChars_injective n n0 he3]

/-- C3 (confirmed): for every label that is a pipe-separated list of
well-formed sub-labels, process_compound_label returns two equal-length
sequences in sub-label order where a bracket-free sub-label yields the raw
sub-label with sentinel id -1 and a sub-label Category[N] yields
(Category, N); in particular A[3]|B[3]|C[7] yields categories [A, B, C] and
ids [3, 3, 7]. -/
theorem c3_compound_label_shape (parts : List (List Char)) (hne : parts ≠ [])
    (hpipe : ∀ p ∈ parts, '|' ∉ p) (hwf : ∀ p ∈ parts, SubLabelWf p) :
    (∃ prs : List (List Char × Int),
        process_compound_label (joinChar '|' parts) = some prs.unzip ∧
        prs.length = parts.length ∧ List.Forall₂ SubRel parts prs) ∧
    process_compound_label ("A[3]|B[3]|C[7]".toList)
      = some (["A".toList, "B".toList, "C".toList], ([3, 3, 7] : List Int)) := by
  constructor
  · obtain ⟨prs, hp, hrel⟩ := pclGo_wf parts hwf
    refine ⟨prs, ?_, (List.Forall₂.length_eq hrel).symm, hrel⟩
    rw [process_compound_label, splitOnChar_joinChar '|' parts hne hpipe, hp]
  · decide

/-- Closed witness for C3, instantiating it on the label A|B[3]. -/
theorem c3_compound_label_shape_witness :
    ((["A".toList, "B[3]".toList] : List (List Char)) ≠ [] ∧
      (∀ p ∈ (["A".toList, "B[3]".toList] : List (List Char)), '|' ∉ p) ∧
      (∀ p ∈ (["A".toList, "B[3]".toList] : List (List Char)), SubLabelWf p)) ∧
    (∃ prs : List (List Char × Int),
        process_compound_label (joinChar '|' ["A".toList, "B[3]".toList]) = some prs.unzip ∧
        prs.length = 2 ∧ List.Forall₂ SubRel ["A".toList, "B[3]".toList] prs) := by
  have hwf : ∀ p ∈ (["A".toList, "B[3]".toList] : List (List Char)), SubLabelWf p := by
    intro p hp
    rcases List.mem_cons.1 hp with he | hp2
    · exact Or.inl (by rw [he]; decide)
    · rcases List.mem_cons.1 hp2 with he | hp3
      · exact Or.inr ⟨"B".toList, 3, by rw [he]; decide, by decide⟩
      · exact absurd hp3 (List.not_mem_nil p)
  exact ⟨⟨by decide, by decide, hwf⟩,
    (c3_compound_label_shape ["A".toList, "B[3]".toList] (by decide) (by decide) hwf).1⟩

/-! ### Claim C9: malformed bracket content aborts the parser -/

/-- Text the parser hands to Python int() for a sub-label holding a bracket:
everything strictly between the first opening bracket and the final
character. -/
def bracketContent (s : List Char) : List Char :=
  (s.drop (((indexOfChar? '[' s).getD 0) + 1)).dropLast

theorem pclSub_eq_of_idx (s : List Char) (bi : Nat) (hb : s.contains '[' = true)
    (hbi : indexOfChar? '[' s = some bi) :
    pclSub s = match pyInt ((s.drop (bi + 1)).dropLast) with
      | none => none
      | some n => some (s.take bi, n) := by
  rw [pclSub, if_pos hb, hbi]

theorem pclSub_none_of_bad (s : List Char) (hb : s.contains '[' = true)
    (hbad : pyInt (bracketContent s) = none) : pclSub s = none := by
  obtain ⟨bi, hbi⟩ := indexOfChar_isSome '[' s (List.elem_iff.1 hb)
  rw [bracketContent, hbi, Option.getD_some] at hbad
  rw [pclSub_eq_of_idx s bi hb hbi, hbad]

theorem pclGo_none (parts : List (List Char))
    (h : ∃ s ∈ parts, s.contains '[' = true ∧ pyInt (bracketContent s) = none) :
    pclGo parts = none := by
  induction parts with
  | nil =>
    obtain ⟨s, hs, _⟩ := h
    exact absurd hs (List.not_mem_nil s)
  | cons p rest ih =>
    obtain ⟨s, hs, hb, hbad⟩ := h
    rcases List.mem_cons.1 hs with he | hm
    · subst he
      cases hrest : pclGo rest <;> simp [pclGo, pclSub_none_of_bad s hb hbad, hrest]
    · have htail := ih ⟨s, hm, hb, hbad⟩
      cases hsub : pclSub p <;> simp [pclGo, hsub, htail]

theorem pclGo_isSome (parts : List (List Char))
    (h : ∀ s ∈ parts, s.contains '[' = true → (pyInt (bracketContent s)).isSome = true) :
    (pclGo parts).isSome = true := by
  induction parts with
  | nil => rfl
  | cons p rest ih =>
    have htail := ih (fun s hs hb => h s (List.mem_cons_of_mem p hs) hb)
    obtain ⟨t, ht⟩ := Option.isSome_iff_exists.1 htail
    cases hb : p.contains '[' with
    | false =>
      have hno : '[' ∉ p := fun hm => by
        have hcm : p.contains '[' = true := List.elem_iff.2 hm
        rw [hb] at hcm
        exact Bool.noConfusion hcm
      simp [pclGo, pclSub_nobracket p hno, ht]
    | true =>
      obtain ⟨bi, hbi⟩ := indexOfChar_isSome '[' p (List.elem_iff.1 hb)
      have hint := h p (List.mem_cons_self p rest) hb
      rw [bracketContent, hbi, Option.getD_some] at hint
      obtain ⟨n, hn⟩ := Option.isSome_iff_exists.1 hint
      have hsub : pclSub p = some (p.take bi, n) := by
        rw [pclSub_eq_of_idx p bi hb hbi, hn]
      simp [pclGo, hsub, ht]

/-- C9 (confirmed): process_compound_label fails to return (the embedded
function yields none, the Python function raises inside int()) exactly when
some sub-label holds an opening bracket whose content between the first
bracket and the final character is not parseable as an integer; when every
bracketed sub-label parses, a result is produced. -/
theorem c9_malformed_bracket_aborts (label : List Char) :
    ((∃ s ∈ splitOnChar '|' label, s.contains '[' = true ∧
        pyInt (bracketContent s) = none) →
      process_compound_label label = none) ∧
    ((∀ s ∈ splitOnChar '|' label, s.contains '[' = true →
        (pyInt (bracketContent s)).isSome = true) →
      (process_compound_label label).isSome = true) :=
  ⟨fun h => pclGo_none _ h, fun h => pclGo_isSome _ h⟩

/-- Closed witness for C9: the label A[x]|B has non-numeric bracket content,
and the parser yields no result on it; labels A[3 and A[] likewise abort. -/
theorem c9_malformed_bracket_aborts_witness :
    (∃ s ∈ splitOnChar '|' ("A[x]|B".toList), s.contains '[' = true ∧
        pyInt (bracketContent s) = none) ∧
    process_compound_label ("A[x]|B".toList) = none ∧
    process_compound_label ("A[3".toList) = none ∧
    process_compound_label ("A[]".toList) = none :=
  ⟨by decide, (c9_malformed_bracket_aborts ("A[x]|B".toList)).1 (by decide),
    (c9_malformed_bracket_aborts ("A[3".toList)).1 (by decide),
    (c9_malformed_bracket_aborts ("A[]".toList)).1 (by decide)⟩


/-! ### Sentence simplification, from tsv_processing.process_sentence -/

/-- Label text rebuilt by the loop body of process_sentence: for every
zipped (category, id) pair, category, a colon, the id printed as-is when it
equals the sentinel -1 and shifted down by the offset otherwise, then a
pipe (the caller drops the final pipe). -/
def renderPairs (off : Int) : List (List Char × Int) → List Char
  | [] => []
  | (c, i) :: rest =>
    c ++ ':' :: (intToChars (if i == -1 then i else i - off) ++ '|' :: renderPairs off rest)

/-- Cells of a row that process_sentence reads: cell 0 truncated at its
first hyphen (the sentence number), cell 2 (the token) and cell 4 (the
label).  Rows with fewer cells or without a hyphen make the Python code
raise. -/
def rowFields (row : List Char) : Option (List Char × List Char × List Char) :=
  let cells := splitOnChar '\t' row
  match cells[0]?, cells[2]?, cells[4]? with
  | some c0, some tok, some label =>
    match indexOfChar? '-' c0 with
    | some hy => some (c0.take hy, tok, label)
    | none => none
  | _, _, _ => none

/-- One iteration of the process_sentence loop: returns the offset after the
row together with the simplified row it appends. -/
def psStep (off : Int) (row : List Char) : Option (Int × List Char) :=
  match rowFields row with
  | none => none
  | some (sentNum, tok, label) =>
    if label == ['_'] then some (off, sentNum ++ '\t' :: (tok ++ '\t' :: ['_']))
    else
      match process_compound_label label with
      | none => none
      | some (cats, ids) =>
        match ids with
        | [] => none
        | i0 :: _ =>
          let off2 := if off == -1000000 then i0 - 1 else off
          some (off2,
            sentNum ++ '\t' :: (tok ++ '\t' :: (renderPairs off2 (cats.zip ids)).dropLast))

/-- Loop of process_sentence carrying the running offset state, which starts
at the sentinel value -1000000. -/
def psGo : List (List Char) → Int → List (List Char) → Option (List (List Char))
  | [], _, out => some out
  | row :: rest, off, out =>
    match psStep off row with
    | none => none
    | some pr => psGo rest pr.1 (out ++ [pr.2])

/-- Shallow embedding of tsv_processing.process_sentence. -/
def process_sentence (tsv_rows : List (List Char)) : Option (List (List Char)) :=
  psGo tsv_rows (-1000000) []

/-- Rendering of simplified labels as the specification words it: a
sentinel id -1 passes through unchanged, every other id has the offset
subtracted. -/
def renderPairsSpec (off : Int) : List (List Char × Int) → List Char
  | [] => []
  | (c, i) :: rest =>
    c ++ ':' :: (intToChars (if i = -1 then -1 else i - off) ++ '|' :: renderPairsSpec off rest)

/-- Simplification of a single row under one fixed offset, as the
specification describes the whole sentence being processed. -/
def simplifyRow (off : Int) (row : List Char) : Option (List Char) :=
  match rowFields row with
  | none => none
  | some (sentNum, tok, label) =>
    if label == ['_'] then some (sentNum ++ '\t' :: (tok ++ '\t' :: ['_']))
    else
      match process_compound_label label with
      | none => none
      | some (cats, ids) =>
        some (sentNum ++ '\t' :: (tok ++ '\t' :: (renderPairsSpec off (cats.zip ids)).dropLast))

/-- Simplification of all rows of a sentence under one fixed offset. -/
def simplifyRows (off : Int) : List (List Char) → Option (List (List Char))
  | [] => some []
  | row :: rest =>
    match simplifyRow off row, simplifyRows off rest with
    | some r, some rs => some (r :: rs)
    | _, _ => none

/-- First annotation id of the first label of the sentence that is not the
bare underscore: the value the offset is computed from. -/
def firstLabelId : List (List Char) → Option Int
  | [] => none
  | row :: rest =>
    match rowFields row with
    | none => none
    | some (_, _, label) =>
      if label == ['_'] then firstLabelId rest
      else
        match process_compound_label label with
        | none => none
        | some (_, ids) => ids.head?

theorem splitOnChar_ne_nil (sep : Char) (l : List Char) : splitOnChar sep l ≠ [] := by
  induction l with
  | nil => simp [splitOnChar]
  | cons c rest ih =>
    rw [splitOnChar]
    split
    · simp
    · cases hs : splitOnChar sep rest with
      | nil => exact absurd hs ih
      | cons r rs => simp [hs]

theorem pcl_ids_ne_nil (label : List Char) (cats : List (List Char)) (ids : List Int)
    (h : process_compound_label label = some (cats, ids)) : ids ≠ [] := by
  rw [process_compound_label] at h
  rcases hs : splitOnChar '|' label with _ | ⟨q, qs⟩
  · exact absurd hs (splitOnChar_ne_nil '|' label)
  · rw [hs] at h
    rw [pclGo] at h
    rcases hsub : pclSub q with _ | pair <;> rcases hgo : pclGo qs with _ | t <;>
      rw [hsub, hgo] at h <;> simp at h
    rw [← h.2]
    simp

theorem renderPairs_eq_spec (off : Int) (ps : List (List Char × Int)) :
    renderPairs off ps = renderPairsSpec off ps := by
  induction ps with
  | nil => rfl
  | cons p rest ih =>
    obtain ⟨c, i⟩ := p
    rw [renderPairs, renderPairsSpec, ih]
    by_cases hi : i = -1
    · simp [hi]
    · have hne : ¬ (i == -1) = true := by simp [hi]
      simp [hi, hne]

theorem psStep_fixed (off : Int) (row : List Char) (hoff : off ≠ -1000000) :
    psStep off row = (simplifyRow off row).map (fun r => (off, r)) := by
  rw [psStep, simplifyRow]
  rcases hrf : rowFields row with _ | ⟨sentNum, tok, label⟩
  · rfl
  · simp only []
    by_cases hu : (label == ['_']) = true
    · rw [if_pos hu, if_pos hu]
      rfl
    · rw [if_neg hu, if_neg hu]
      rcases hpc : process_compound_label label with _ | ⟨cats, ids⟩
      · rfl
      · rcases hids : ids with _ | ⟨i0, ids'⟩
        · exact absurd hids (pcl_ids_ne_nil label cats ids hpc)
        · have hoffne : ¬ (off == -1000000) = true := by simp [hoff]
          simp only [hoffne, if_false, renderPairs_eq_spec, Option.map_some]
          simp

theorem psGo_fixed (rows : List (List Char)) : ∀ (off : Int) (out : List (List Char)),
    off ≠ -1000000 →
    psGo rows off out = (simplifyRows off rows).map (out ++ ·) := by
  induction rows with
  | nil => intro off out _; simp [psGo, simplifyRows]
  | cons row rest ih =>
    intro off out hoff
    rw [psGo, simplifyRows, psStep_fixed off row hoff]
    rcases hsr : simplifyRow off row with _ | r
    · rfl
    · rcases hrest : simplifyRows off rest with _ | rs <;>
        simp [ih off (out ++ [r]) hoff, hrest]

theorem psGo_init (rows : List (List Char)) : ∀ (out : List (List Char)) (f : Int),
    firstLabelId rows = some f → f ≠ -999999 →
    psGo rows (-1000000) out = (simplifyRows (f - 1) rows).map (out ++ ·) := by
  induction rows with
  | nil =>
    intro out f hf _
    rw [firstLabelId] at hf
    exact absurd hf Option.noConfusion
  | cons row rest ih =>
    intro out f hf hne
    rw [firstLabelId] at hf
    rcases hrf : rowFields row with _ | ⟨sentNum, tok, label⟩
    · rw [hrf] at hf
      exact absurd hf Option.noConfusion
    · rw [hrf] at hf
      simp only [] at hf
      by_cases hu : (label == ['_']) = true
      · rw [if_pos hu] at hf
        have hstep : psStep (-1000000) row
            = some (-1000000, sentNum ++ '\t' :: (tok ++ '\t' :: ['_'])) := by
          simp [psStep, hrf, hu]
        rw [psGo, hstep]
        simp only []
        rw [ih _ f hf hne]
        have hsr : simplifyRow (f - 1) row
            = some (sentNum ++ '\t' :: (tok ++ '\t' :: ['_'])) := by
          simp [simplifyRow, hrf, hu]
        rw [simplifyRows, hsr]
        rcases hrest : simplifyRows (f - 1) rest with _ | rs <;> simp
      · rw [if_neg hu] at hf
        rcases hpc : process_compound_label label with _ | ⟨cats, ids⟩
        · rw [hpc] at hf
          exact absurd hf Option.noConfusion
        · rw [hpc] at hf
          rcases hids : ids with _ | ⟨i0, ids'⟩
          · exact absurd hids (pcl_ids_ne_nil label cats ids hpc)
          · rw [hids] at hf
            have hf0 : i0 = f := by
              simp only [List.head?_cons] at hf
              exact Option.some_inj.1 hf
            subst hf0
            have hstep : psStep (-1000000) row
                = some (i0 - 1, sentNum ++ '\t' ::
                    (tok ++ '\t' :: (renderPairs (i0 - 1) (cats.zip ids)).dropLast)) := by
              simp [psStep, hrf, hu, hpc, hids]
            rw [psGo, hstep]
            simp only []
            rw [psGo_fixed rest (i0 - 1) _ (by omega)]
            have hsr : simplifyRow (i0 - 1) row
                = some (sentNum ++ '\t' ::
                    (tok ++ '\t' :: (renderPairs (i0 - 1) (cats.zip ids)).dropLast)) := by
              simp [simplifyRow, hrf, hu, hpc, hids, renderPairs_eq_spec]
            rw [simplifyRows, hsr]
            rcases hrest : simplifyRows (i0 - 1) rest with _ | rs <;> simp

/-- C4 (confirmed): process_sentence computes one offset, the first
annotation id of the first label that is not the underscore minus one, and
simplifies every row of the sentence with that single fixed offset:
non-sentinel ids are shifted down by it, sentinel ids pass through
unchanged (see renderPairsSpec).  The hypothesis f ≠ -999999 rules out the
offset colliding with the uninitialised-state sentinel -1000000. -/
theorem c4_offset_normalizer (rows : List (List Char)) (f : Int)
    (hf : firstLabelId rows = some f) (hne : f ≠ -999999) :
    process_sentence rows = simplifyRows (f - 1) rows := by
  rw [process_sentence, psGo_init rows [] f hf hne]
  rcases simplifyRows (f - 1) rows with _ | t <;> simp

/-- Closed witness for C4 on a sentence whose first non-underscore label
has id 5: every occurrence of id 5 is emitted as the local id 1. -/
theorem c4_offset_normalizer_witness :
    firstLabelId ["0-1\tx\tw\t_\t_".toList, "0-2\tx\tfoo\t_\tQuote[5]".toList,
        "0-3\tx\tbar\t_\tQuote[5]".toList] = some 5 ∧
    (5 : Int) ≠ -999999 ∧
    process_sentence ["0-1\tx\tw\t_\t_".toList, "0-2\tx\tfoo\t_\tQuote[5]".toList,
        "0-3\tx\tbar\t_\tQuote[5]".toList]
      = some ["0\tw\t_".toList, "0\tfoo\tQuote:1".toList, "0\tbar\tQuote:1".toList] ∧
    simplifyRows 4 ["0-1\tx\tw\t_\t_".toList, "0-2\tx\tfoo\t_\tQuote[5]".toList,
        "0-3\tx\tbar\t_\tQuote[5]".toList]
      = some ["0\tw\t_".toList, "0\tfoo\tQuote:1".toList, "0\tbar\tQuote:1".toList] := by
  refine ⟨by decide, by decide, ?_, by decide⟩
  rw [c4_offset_normalizer _ 5 (by decide) (by decide)]
  decide

/-- C10 (confirmed): when the first non-underscore label of a sentence
begins with a bare sub-label, that sub-label parses to the sentinel id -1
(second conjunct), so the offset becomes -2 and the whole sentence is
simplified with offset -2, under which every non-sentinel id N is printed
as N + 2 while sentinel ids still pass through as -1 (third conjunct). -/
theorem c10_bare_first_sublabel_offset (rows : List (List Char))
    (hf : firstLabelId rows = some (-1)) :
    process_sentence rows = simplifyRows (-2) rows ∧
    (∀ s : List Char, '[' ∉ s → pclSub s = some (s, -1)) ∧
    (∀ (c : List Char) (n : Int) (ps : List (List Char × Int)), n ≠ -1 →
      renderPairsSpec (-2) ((c, n) :: ps)
        = c ++ ':' :: (intToChars (n + 2) ++ '|' :: renderPairsSpec (-2) ps)) ∧
    (∀ (c : List Char) (ps : List (List Char × Int)),
      renderPairsSpec (-2) ((c, -1) :: ps)
        = c ++ ':' :: (intToChars (-1) ++ '|' :: renderPairsSpec (-2) ps)) := by
  refine ⟨?_, fun s h => pclSub_nobracket s h, ?_, ?_⟩
  · have h2 : ((-1 : Int) - 1) = -2 := by norm_num
    rw [process_sentence, psGo_init rows [] (-1) hf (by decide), h2]
    rcases simplifyRows (-2) rows with _ | t <;> simp
  · intro c n ps hn
    rw [renderPairsSpec, if_neg hn]
    have harith : n - (-2) = n + 2 := by omega
    rw [harith]
  · intro c ps
    rw [renderPairsSpec, if_pos rfl]

/-- Closed witness for C10: a sentence whose first label is Cue|Quote[3]
gets offset -2, so Quote keeps local id 3 + 2 = 5 and the sentinel prints
as -1. -/
theorem c10_bare_first_sublabel_offset_witness :
    firstLabelId ["0-1\tx\tw\tX\tCue|Quote[3]".toList] = some (-1) ∧
    process_sentence ["0-1\tx\tw\tX\tCue|Quote[3]".toList]
      = some ["0\tw\tCue:-1|Quote:5".toList] ∧
    simplifyRows (-2) ["0-1\tx\tw\tX\tCue|Quote[3]".toList]
      = some ["0\tw\tCue:-1|Quote:5".toList] := by
  refine ⟨by decide, ?_, by decide⟩
  rw [(c10_bare_first_sublabel_offset _ (by decide)).1]
  decide

/-! ### Span aggregation over simplified rows, from tsv_processing.get_annotations -/

/-- A reconstructed span, the [category, start, stop] list the Python code
builds (stop is the inclusive end index). -/
structure Span where
  category : List Char
  start : Nat
  stop : Nat
deriving DecidableEq

/-- In-place update of the stop index of the accumulator entry keyed by
key, modelling the mutation of the list stored in the insertion-ordered
dict. -/
def updStop (acc : List (List Char × Span)) (key : List Char) (i : Nat) :
    List (List Char × Span) :=
  acc.map (fun kv => if kv.1 == key then (kv.1, { kv.2 with stop := i }) else kv)

/-- One annotation of the multi-reference branch: split "category:index" on
the colon (exactly two parts, else Python raises), parse the index (unused
but still parsed, so a parse failure raises), then open or update the
accumulator entry keyed by the full annotation text. -/
def refsStep (i : Nat) (acc : List (List Char × Span)) (ann : List Char) :
    Option (List (List Char × Span)) :=
  match splitOnChar ':' ann with
  | [category, idxStr] =>
    match pyInt idxStr with
    | none => none
    | some _ =>
      if acc.any (fun kv => kv.1 == ann) then some (updStop acc ann i)
      else some (acc ++ [(ann, ⟨category, i, i⟩)])
  | _ => none

/-- All annotations of one token label, in label order. -/
def refsFold (i : Nat) : List (List Char) → List (List Char × Span) →
    Option (List (List Char × Span))
  | [], acc => some acc
  | ann :: rest, acc =>
    match refsStep i acc ann with
    | none => none
    | some acc2 => refsFold i rest acc2

/-- Token scan of tsv_processing.get_annotations: enumeration index i,
eagerly emitted spans out, and the insertion-ordered accumulator acc.  A
label holding a star stops the scan immediately, an underscore label is
skipped, a label holding the substring "-1" emits one span built from the
text before the first colon, and any other label goes through the
multi-reference branch. -/
def gaScan (col : Nat) : List (List (List Char)) → Nat → List Span →
    List (List Char × Span) → Option (List Span × List (List Char × Span))
  | [], _, out, acc => some (out, acc)
  | tok :: rest, i, out, acc =>
    match tok[col]? with
    | none => none
    | some label =>
      if hasSub ['*'] label then some (out, acc)
      else if label == ['_'] then gaScan col rest (i + 1) out acc
      else if hasSub ['-', '1'] label then
        match indexOfChar? ':' label with
        | none => none
        | some j => gaScan col rest (i + 1) (out ++ [⟨label.take j, i, i⟩]) acc
      else
        match refsFold i (splitOnChar '|' label) acc with
        | none => none
        | some acc2 => gaScan col rest (i + 1) out acc2

/-- Shallow embedding of tsv_processing.get_annotations: after the scan the
accumulator values are appended, in insertion order, after the eagerly
emitted spans. -/
def get_annotations (sentence : List (List (List Char))) (annotation_column : Nat) :
    Option (List Span) :=
  (gaScan annotation_column sentence 0 [] []).map (fun pr => pr.1 ++ pr.2.map (·.2))

/-- Spans the scan emits eagerly, in token-scan order (phase one of the
ordering guarantee). -/
def eagerTsv (col : Nat) : List (List (List Char)) → Nat → List Span
  | [], _ => []
  | tok :: rest, i =>
    match tok[col]? with
    | none => []
    | some label =>
      if hasSub ['*'] label then []
      else if label == ['_'] then eagerTsv col rest (i + 1)
      else if hasSub ['-', '1'] label then
        match indexOfChar? ':' label with
        | none => []
        | some j => ⟨label.take j, i, i⟩ :: eagerTsv col rest (i + 1)
      else eagerTsv col rest (i + 1)

/-- Accumulator contents after the scan, keyed in first-insertion order
(phase two of the ordering guarantee). -/
def accTsv (col : Nat) : List (List (List Char)) → Nat → List (List Char × Span) →
    List (List Char × Span)
  | [], _, acc => acc
  | tok :: rest, i, acc =>
    match tok[col]? with
    | none => acc
    | some label =>
      if hasSub ['*'] label then acc
      else if label == ['_'] then accTsv col rest (i + 1) acc
      else if hasSub ['-', '1'] label then accTsv col rest (i + 1) acc
      else
        match refsFold i (splitOnChar '|' label) acc with
        | none => acc
        | some acc2 => accTsv col rest (i + 1) acc2

/-- Sanity of one annotation text for the multi-reference branch. -/
def refOk (ann : List Char) : Bool :=
  match splitOnChar ':' ann with
  | [_, idxStr] => (pyInt idxStr).isSome
  | _ => false

/-- Labels on which the scan body cannot raise. -/
def labelOk (label : List Char) : Bool :=
  if hasSub ['*'] label then true
  else if label == ['_'] then true
  else if hasSub ['-', '1'] label then (indexOfChar? ':' label).isSome
  else (splitOnChar '|' label).all refOk

/-- Tokens on which the scan body cannot raise. -/
def tokOk (col : Nat) (tok : List (List Char)) : Bool :=
  match tok[col]? with
  | none => false
  | some label => labelOk label

/-- Tokens that moreover carry no star marker, so the scan passes them. -/
def tokNoStar (col : Nat) (tok : List (List Char)) : Bool :=
  match tok[col]? with
  | none => false
  | some label => !(hasSub ['*'] label) && labelOk label

theorem refsFold_isSome : ∀ (refs : List (List Char)) (i : Nat)
    (acc : List (List Char × Span)), refs.all refOk = true →
    ∃ acc2, refsFold i refs acc = some acc2 := by
  intro refs
  induction refs with
  | nil => intro i acc _; exact ⟨acc, rfl⟩
  | cons ann rest ih =>
    intro i acc hok
    simp only [List.all_cons, Bool.and_eq_true] at hok
    obtain ⟨h1, h2⟩ := hok
    rcases hsp : splitOnChar ':' ann with _ | ⟨c1, _ | ⟨c2, _ | ⟨c3, tl⟩⟩⟩
    · exact absurd h1 (by simp [refOk, hsp])
    · exact absurd h1 (by simp [refOk, hsp])
    · have h1s : (pyInt c2).isSome = true := by
        have hre : refOk ann = true := h1
        rw [refOk, hsp] at hre
        exact hre
      obtain ⟨n, hn⟩ := Option.isSome_iff_exists.1 h1s
      have hstep : ∃ acc2, refsStep i acc ann = some acc2 := by
        simp only [refsStep, hsp, hn]
        by_cases hmem : acc.any (fun kv => kv.1 == ann) = true
        · rw [if_pos hmem]; exact ⟨_, rfl⟩
        · rw [if_neg hmem]; exact ⟨_, rfl⟩
      obtain ⟨acc2, hacc2⟩ := hstep
      obtain ⟨acc3, hacc3⟩ := ih i acc2 h2
      exact ⟨acc3, by simp only [refsFold, hacc2, hacc3]⟩
    · exact absurd h1 (by simp [refOk, hsp])

theorem gaScan_decomp (col : Nat) (toks : List (List (List Char))) :
    ∀ (i : Nat) (out : List Span) (acc : List (List Char × Span)),
    (∀ t ∈ toks, tokOk col t = true) →
    gaScan col toks i out acc = some (out ++ eagerTsv col toks i, accTsv col toks i acc) := by
  induction toks with
  | nil => intro i out acc _; simp [gaScan, eagerTsv, accTsv]
  | cons tok rest ih =>
    intro i out acc hok
    have htok := hok tok (List.mem_cons_self tok rest)
    have hrest : ∀ t ∈ rest, tokOk col t = true :=
      fun t ht => hok t (List.mem_cons_of_mem tok ht)
    rcases hcol : tok[col]? with _ | label
    · rw [tokOk, hcol] at htok; exact Bool.noConfusion htok
    · simp only [tokOk, hcol] at htok
      by_cases hstar : hasSub ['*'] label = true
      · simp [gaScan, eagerTsv, accTsv, hcol, hstar]
      · by_cases hund : (label == ['_']) = true
        · simp only [gaScan, eagerTsv, accTsv, hcol, hstar, hund, if_true, if_false,
            Bool.false_eq_true]
          exact ih (i + 1) out acc hrest
        · by_cases hneg : hasSub ['-', '1'] label = true
          · have hidx : (indexOfChar? ':' label).isSome = true := by
              simp only [labelOk, hstar, hund, hneg, if_true, if_false,
                Bool.false_eq_true] at htok
              exact htok
            obtain ⟨j, hj⟩ := Option.isSome_iff_exists.1 hidx
            simp only [gaScan, eagerTsv, accTsv, hcol, hstar, hund, hneg, hj, if_true,
              if_false, Bool.false_eq_true]
            have h := ih (i + 1) (out ++ [⟨label.take j, i, i⟩]) acc hrest
            simpa using h
          · have hall : (splitOnChar '|' label).all refOk = true := by
              simp only [labelOk, hstar, hund, hneg, if_true, if_false,
                Bool.false_eq_true] at htok
              exact htok
            obtain ⟨acc2, hacc2⟩ := refsFold_isSome (splitOnChar '|' label) i acc hall
            simp only [gaScan, eagerTsv, accTsv, hcol, hstar, hund, hneg, hacc2, if_true,
              if_false, Bool.false_eq_true]
            exact ih (i + 1) out acc2 hrest

/-! ### Document object model, from document.py -/

/-- TokenAnnotation from document.py: one annotation reference attached to
one token. -/
structure TokenAnnotation where
  category : List Char
  id : Int
  annotator : List Char := []
deriving DecidableEq

/-- Annotation from document.py; the end field is named stop here because
end is reserved in Lean.  Sentence.get_annotations always sets it, and
never sets the annotator field, which keeps its empty default. -/
structure Annotation where
  category : List Char
  start : Int
  stop : Int
  annotator : List Char := []
deriving DecidableEq

/-- Token from document.py. -/
structure Token where
  text : List Char
  id : Int
  annotations : List TokenAnnotation := []
deriving DecidableEq

/-- Sentence from document.py; its id is unset (Python None) until a
document assigns it. -/
structure Sentence where
  id : Option Int := none
  tokens : List Token := []
deriving DecidableEq

/-- In-place update of the stop index of the accumulator entry keyed by an
annotation id, modelling the mutation of the Annotation object stored in
the insertion-ordered dict. -/
def updStopDoc (acc : List (Int × Annotation)) (key : Int) (i : Int) :
    List (Int × Annotation) :=
  acc.map (fun kv => if kv.1 == key then (kv.1, { kv.2 with stop := i }) else kv)

/-- One TokenAnnotation step of Sentence.get_annotations: annotations of
other annotators are skipped; a sentinel id -1 appends a span immediately;
otherwise the accumulator entry keyed by the id is opened or has its stop
updated. -/
def docStep (annotator : List Char) (tid : Int)
    (st : List Annotation × List (Int × Annotation)) (ta : TokenAnnotation) :
    List Annotation × List (Int × Annotation) :=
  if ta.annotator == annotator then
    if ta.id == -1 then (st.1 ++ [⟨ta.category, tid, tid, []⟩], st.2)
    else if st.2.any (fun kv => kv.1 == ta.id) then (st.1, updStopDoc st.2 ta.id tid)
    else (st.1, st.2 ++ [(ta.id, ⟨ta.category, tid, tid, []⟩)])
  else st

/-- All TokenAnnotations of one token, in list order. -/
def docRefs (annotator : List Char) (tid : Int) :
    List TokenAnnotation → List Annotation × List (Int × Annotation) →
    List Annotation × List (Int × Annotation)
  | [], st => st
  | ta :: rest, st => docRefs annotator tid rest (docStep annotator tid st ta)

/-- Token scan of Sentence.get_annotations. -/
def docScan (annotator : List Char) :
    List Token → List Annotation × List (Int × Annotation) →
    List Annotation × List (Int × Annotation)
  | [], st => st
  | tok :: rest, st => docScan annotator rest (docRefs annotator tok.id tok.annotations st)

/-- Shallow embedding of Sentence.get_annotations from document.py: scan
every token's annotations, then append the accumulator values in insertion
order after the eagerly emitted sentinel spans. -/
def Sentence.get_annotations (s : Sentence) (annotator : List Char) : List Annotation :=
  let st := docScan annotator s.tokens ([], [])
  st.1 ++ st.2.map (·.2)

/-- Sentinel spans of one token, in reference order. -/
def eagerRefs (annotator : List Char) (tid : Int) (tas : List TokenAnnotation) :
    List Annotation :=
  (tas.filter (fun ta => ta.annotator == annotator && ta.id == -1)).map
    (fun ta => ⟨ta.category, tid, tid, []⟩)

/-- Spans Sentence.get_annotations emits eagerly, in token-scan order. -/
def eagerDoc (annotator : List Char) : List Token → List Annotation
  | [] => []
  | tok :: rest => eagerRefs annotator tok.id tok.annotations ++ eagerDoc annotator rest

/-- Accumulator-only step: what docStep does to the accumulator. -/
def accStep (annotator : List Char) (tid : Int) (acc : List (Int × Annotation))
    (ta : TokenAnnotation) : List (Int × Annotation) :=
  if ta.annotator == annotator && !(ta.id == -1) then
    if acc.any (fun kv => kv.1 == ta.id) then updStopDoc acc ta.id tid
    else acc ++ [(ta.id, ⟨ta.category, tid, tid, []⟩)]
  else acc

/-- Accumulator of one token's annotations. -/
def accRefs (annotator : List Char) (tid : Int) :
    List TokenAnnotation → List (Int × Annotation) → List (Int × Annotation)
  | [], acc => acc
  | ta :: rest, acc => accRefs annotator tid rest (accStep annotator tid acc ta)

/-- Accumulator contents after the whole token scan, keyed in
first-insertion order. -/
def accDoc (annotator : List Char) : List Token → List (Int × Annotation) →
    List (Int × Annotation)
  | [], acc => acc
  | tok :: rest, acc => accDoc annotator rest (accRefs annotator tok.id tok.annotations acc)

theorem docRefs_decomp (annotator : List Char) (tid : Int) (tas : List TokenAnnotation) :
    ∀ (out : List Annotation) (acc : List (Int × Annotation)),
    docRefs annotator tid tas (out, acc)
      = (out ++ eagerRefs annotator tid tas, accRefs annotator tid tas acc) := by
  induction tas with
  | nil => intro out acc; simp [docRefs, eagerRefs, accRefs]
  | cons ta rest ih =>
    intro out acc
    rw [docRefs, accRefs]
    by_cases ha : (ta.annotator == annotator) = true
    · by_cases hid : (ta.id == -1) = true
      · have hstep : docStep annotator tid (out, acc) ta
            = (out ++ [⟨ta.category, tid, tid, []⟩], acc) := by
          simp [docStep, ha, hid]
        have hacc : accStep annotator tid acc ta = acc := by
          simp [accStep, hid]
        rw [hstep, hacc, ih]
        have heag : eagerRefs annotator tid (ta :: rest)
            = ⟨ta.category, tid, tid, []⟩ :: eagerRefs annotator tid rest := by
          simp [eagerRefs, List.filter_cons, ha, hid]
        rw [heag]
        simp
      · have hstep : docStep annotator tid (out, acc) ta
            = (out, accStep annotator tid acc ta) := by
          simp only [docStep, accStep, ha, hid, if_true, if_false, Bool.false_eq_true,
            Bool.and_self, Bool.not_false, Bool.and_true]
          split <;> rfl
        have heag : eagerRefs annotator tid (ta :: rest) = eagerRefs annotator tid rest := by
          simp [eagerRefs, List.filter_cons, ha, hid]
        rw [hstep, ih, heag]
    · have hstep : docStep annotator tid (out, acc) ta = (out, acc) := by
        simp [docStep, ha]
      have hacc : accStep annotator tid acc ta = acc := by
        simp [accStep, ha]
      have heag : eagerRefs annotator tid (ta :: rest) = eagerRefs annotator tid rest := by
        simp [eagerRefs, List.filter_cons, ha]
      rw [hstep, hacc, ih, heag]

theorem docScan_decomp (annotator : List Char) (toks : List Token) :
    ∀ (out : List Annotation) (acc : List (Int × Annotation)),
    docScan annotator toks (out, acc)
      = (out ++ eagerDoc annotator toks, accDoc annotator toks acc) := by
  induction toks with
  | nil => intro out acc; simp [docScan, eagerDoc, accDoc]
  | cons tok rest ih =>
    intro out acc
    rw [docScan, eagerDoc, accDoc, docRefs_decomp, ih]
    simp

/-! ### Claim C2: two-phase ordering of the aggregator output -/

/-- C2 (confirmed): on both aggregators, for star-free (and, for the
simplified-row variant, well-formed) streams, the output is exactly the
eagerly emitted sentinel spans in token-scan order followed by the
accumulator entries in first-insertion order; on the four-token stream
Cue sentinel, Quote id 7, Quote id 7, Cue sentinel the output is
(Cue,0,0), (Cue,3,3), (Quote,1,2). -/
theorem c2_two_phase_ordering :
    (∀ (sentence : List (List (List Char))) (col : Nat),
      (∀ t ∈ sentence, tokNoStar col t = true) →
      get_annotations sentence col
        = some (eagerTsv col sentence 0 ++ (accTsv col sentence 0 []).map (·.2))) ∧
    (∀ (s : Sentence) (a : List Char),
      Sentence.get_annotations s a
        = eagerDoc a s.tokens ++ (accDoc a s.tokens []).map (·.2)) ∧
    get_annotations [["Cue:-1".toList], ["Quote:7".toList], ["Quote:7".toList],
        ["Cue:-1".toList]] 0
      = some [⟨"Cue".toList, 0, 0⟩, ⟨"Cue".toList, 3, 3⟩, ⟨"Quote".toList, 1, 2⟩] ∧
    Sentence.get_annotations
        ⟨none, [⟨"t0".toList, 0, [⟨"Cue".toList, -1, []⟩]⟩,
                ⟨"t1".toList, 1, [⟨"Quote".toList, 7, []⟩]⟩,
                ⟨"t2".toList, 2, [⟨"Quote".toList, 7, []⟩]⟩,
                ⟨"t3".toList, 3, [⟨"Cue".toList, -1, []⟩]⟩]⟩ []
      = [⟨"Cue".toList, 0, 0, []⟩, ⟨"Cue".toList, 3, 3, []⟩, ⟨"Quote".toList, 1, 2, []⟩] := by
  refine ⟨?_, ?_, by decide, by decide⟩
  · intro sentence col h
    have hok : ∀ t ∈ sentence, tokOk col t = true := by
      intro t ht
      have hns := h t ht
      rw [tokNoStar] at hns
      rw [tokOk]
      rcases hcol : t[col]? with _ | label
      · rw [hcol] at hns; exact hns
      · rw [hcol] at hns
        simp only [Bool.and_eq_true] at hns
        exact hns.2
    rw [get_annotations, gaScan_decomp col sentence 0 [] [] hok]
    simp
  · intro s a
    rw [Sentence.get_annotations]
    rw [docScan_decomp a s.tokens [] []]
    simp

/-- Closed witness for C2, instantiating the simplified-row conjunct on a
concrete star-free stream. -/
theorem c2_two_phase_ordering_witness :
    (∀ t ∈ [["Cue:-1".toList], ["Quote:7".toList]], tokNoStar 0 t = true) ∧
    get_annotations [["Cue:-1".toList], ["Quote:7".toList]] 0
      = some (eagerTsv 0 [["Cue:-1".toList], ["Quote:7".toList]] 0
          ++ (accTsv 0 [["Cue:-1".toList], ["Quote:7".toList]] 0 []).map (·.2)) :=
  ⟨by decide, c2_two_phase_ordering.1 _ 0 (by decide)⟩

/-! ### Claim C1: eager emission of sentinel spans -/

/-- Tokens with the sentinel references removed (every annotator's). -/
def dropSentinels (toks : List Token) : List Token :=
  toks.map (fun t => { t with annotations := t.annotations.filter (fun ta => !(ta.id == -1)) })

theorem accRefs_dropSentinels (a : List Char) (tid : Int) (tas : List TokenAnnotation) :
    ∀ acc, accRefs a tid tas acc
      = accRefs a tid (tas.filter (fun ta => !(ta.id == -1))) acc := by
  induction tas with
  | nil => intro acc; rfl
  | cons ta rest ih =>
    intro acc
    by_cases hid : (ta.id == -1) = true
    · have hstep : accStep a tid acc ta = acc := by
        simp [accStep, hid]
      rw [accRefs, hstep, List.filter_cons]
      simp only [hid, Bool.not_true, Bool.false_eq_true, if_false]
      exact ih acc
    · rw [accRefs, List.filter_cons]
      have hkeep : (!(ta.id == -1)) = true := by
        simp only [Bool.not_eq_true'] at hid ⊢
        exact Bool.not_eq_true (ta.id == -1) ▸ (by simp [hid])
      simp only [hkeep, if_true]
      rw [accRefs]
      exact ih (accStep a tid acc ta)

theorem accDoc_dropSentinels (a : List Char) (toks : List Token) :
    ∀ acc, accDoc a toks acc = accDoc a (dropSentinels toks) acc := by
  induction toks with
  | nil => intro acc; rfl
  | cons tok rest ih =>
    intro acc
    rw [accDoc, dropSentinels, List.map_cons]
    rw [accDoc]
    simp only []
    rw [← accRefs_dropSentinels a tok.id tok.annotations acc]
    exact ih _

/-- C1 counterexample: in the simplified-row aggregator a token whose label
holds both a sentinel reference A:-1 and a non-sentinel reference B:1 emits
only the single span (A, 0, 0); the reference B:1 on token 0 is dropped
rather than opening an accumulator entry, so scanning [A:-1|B:1, B:1]
yields (B,1,1) and not the span (B,0,1) that normal processing of the
non-sentinel reference would give. -/
theorem c1_counterexample :
    get_annotations [["A:-1|B:1".toList], ["B:1".toList]] 0
      = some [⟨"A".toList, 0, 0⟩, ⟨"B".toList, 1, 1⟩] ∧
    get_annotations [["A:-1|B:1".toList], ["B:1".toList]] 0
      ≠ some [⟨"A".toList, 0, 0⟩, ⟨"B".toList, 0, 1⟩] :=
  ⟨by decide, by decide⟩

/-- C1 (corrected): in the object-model aggregator every sentinel reference
emits a span with start = end = its token's index immediately, in scan
order, and the non-sentinel references are still processed normally: the
accumulator result is unchanged when the sentinel references are deleted
from the stream.  In the simplified-row aggregator, a label holding the
substring "-1" instead emits exactly one span, whose category is the text
before the first colon of the whole compound label, and no other reference
of that label is processed. -/
theorem c1_sentinel_emission :
    (∀ (s : Sentence) (a : List Char),
      Sentence.get_annotations s a
        = eagerDoc a s.tokens ++ (accDoc a (dropSentinels s.tokens) []).map (·.2)) ∧
    (∀ (col : Nat) (tok : List (List Char)) (rest : List (List (List Char)))
        (label : List Char) (j i : Nat) (out : List Span) (acc : List (List Char × Span)),
      tok[col]? = some label →
      hasSub ['*'] label = false →
      (label == ['_']) = false →
      hasSub ['-', '1'] label = true →
      indexOfChar? ':' label = some j →
      gaScan col (tok :: rest) i out acc
        = gaScan col rest (i + 1) (out ++ [⟨label.take j, i, i⟩]) acc) := by
  constructor
  · intro s a
    rw [Sentence.get_annotations]
    rw [docScan_decomp a s.tokens [] []]
    rw [← accDoc_dropSentinels a s.tokens []]
    simp
  · intro col tok rest label j i out acc hcol hstar hund hneg hj
    simp only [gaScan, hcol, hstar, hund, hneg, hj, Bool.false_eq_true, if_false, if_true]

/-- Closed witness for C1's amended statement, instantiating the
simplified-row conjunct at the counterexample token. -/
theorem c1_sentinel_emission_witness :
    (["A:-1|B:1".toList][0]? = some ("A:-1|B:1".toList) ∧
      hasSub ['*'] ("A:-1|B:1".toList) = false ∧
      (("A:-1|B:1".toList) == ['_']) = false ∧
      hasSub ['-', '1'] ("A:-1|B:1".toList) = true ∧
      indexOfChar? ':' ("A:-1|B:1".toList) = some 1) ∧
    gaScan 0 [["A:-1|B:1".toList], ["B:1".toList]] 0 [] []
      = gaScan 0 [["B:1".toList]] 1 ([] ++ [⟨"A".toList, 0, 0⟩]) [] :=
  ⟨⟨by decide, by decide, by decide, by decide, by decide⟩,
    c1_sentinel_emission.2 0 ["A:-1|B:1".toList] [["B:1".toList]] ("A:-1|B:1".toList)
      1 0 [] [] (by decide) (by decide) (by decide) (by decide) (by decide)⟩

/-! ### Claim C5: truncation at a star marker -/

theorem gaScan_append_no_star (col : Nat) (pre : List (List (List Char))) :
    ∀ (more : List (List (List Char))) (i : Nat) (out : List Span)
      (acc : List (List Char × Span)),
    (∀ t ∈ pre, tokNoStar col t = true) →
    gaScan col (pre ++ more) i out acc
      = gaScan col more (i + pre.length) (out ++ eagerTsv col pre i) (accTsv col pre i acc) := by
  induction pre with
  | nil => intro more i out acc _; simp [eagerTsv, accTsv]
  | cons tok rest ih =>
    intro more i out acc hok
    have htok := hok tok (List.mem_cons_self tok rest)
    have hrest : ∀ t ∈ rest, tokNoStar col t = true :=
      fun t ht => hok t (List.mem_cons_of_mem tok ht)
    rcases hcol : tok[col]? with _ | label
    · rw [tokNoStar, hcol] at htok; exact Bool.noConfusion htok
    · simp only [tokNoStar, hcol, Bool.and_eq_true] at htok
      obtain ⟨hstarb, hlok⟩ := htok
      have hstar : ¬ (hasSub ['*'] label = true) := by
        simp only [Bool.not_eq_true'] at hstarb
        rw [hstarb]
        exact Bool.false_ne_true
      by_cases hund : (label == ['_']) = true
      · simp only [List.cons_append, gaScan, eagerTsv, accTsv, hcol, hstar, hund, if_true,
          if_false, Bool.false_eq_true, List.append_eq, List.length_cons]
        have h := ih more (i + 1) out acc hrest
        rw [h]
        have hlen : i + 1 + rest.length = i + (rest.length + 1) := by omega
        rw [hlen]
      · by_cases hneg : hasSub ['-', '1'] label = true
        · have hidx : (indexOfChar? ':' label).isSome = true := by
            simp only [labelOk, hstar, hund, hneg, if_true, if_false,
              Bool.false_eq_true] at hlok
            exact hlok
          obtain ⟨j, hj⟩ := Option.isSome_iff_exists.1 hidx
          simp only [List.cons_append, gaScan, eagerTsv, accTsv, hcol, hstar, hund, hneg,
            hj, if_true, if_false, Bool.false_eq_true, List.append_eq, List.length_cons]
          have h := ih more (i + 1) (out ++ [⟨label.take j, i, i⟩]) acc hrest
          rw [h]
          have hlen : i + 1 + rest.length = i + (rest.length + 1) := by omega
          rw [hlen]
          simp
        · have hall : (splitOnChar '|' label).all refOk = true := by
            simp only [labelOk, hstar, hund, hneg, if_true, if_false,
              Bool.false_eq_true] at hlok
            exact hlok
          obtain ⟨acc2, hacc2⟩ := refsFold_isSome (splitOnChar '|' label) i acc hall
          simp only [List.cons_append, gaScan, eagerTsv, accTsv, hcol, hstar, hund, hneg,
            hacc2, if_true, if_false, Bool.false_eq_true, List.append_eq, List.length_cons]
          have h := ih more (i + 1) out acc2 hrest
          rw [h]
          have hlen : i + 1 + rest.length = i + (rest.length + 1) := by omega
          rw [hlen]

/-- C5 (confirmed): when the first label holding a star appears on the
token after the star-free, well-formed prefix pre, the scan stops at that
token: the result is the sentinel spans already emitted on pre, followed by
the accumulator entries already opened on pre in first-insertion order,
with their accumulated end indexes; nothing after the star token is
scanned, and the result equals the aggregation of pre alone. -/
theorem c5_star_truncation (col : Nat) (pre : List (List (List Char)))
    (tokStar : List (List Char)) (post : List (List (List Char))) (label : List Char)
    (hpre : ∀ t ∈ pre, tokNoStar col t = true)
    (hcol : tokStar[col]? = some label)
    (hstar : hasSub ['*'] label = true) :
    get_annotations (pre ++ tokStar :: post) col
      = some (eagerTsv col pre 0 ++ (accTsv col pre 0 []).map (·.2)) ∧
    get_annotations (pre ++ tokStar :: post) col = get_annotations pre col := by
  have hok : ∀ t ∈ pre, tokOk col t = true := by
    intro t ht
    have hns := hpre t ht
    rw [tokNoStar] at hns
    rw [tokOk]
    rcases hc : t[col]? with _ | lab
    · rw [hc] at hns; exact hns
    · rw [hc] at hns
      simp only [Bool.and_eq_true] at hns
      exact hns.2
  have hmain : get_annotations (pre ++ tokStar :: post) col
      = some (eagerTsv col pre 0 ++ (accTsv col pre 0 []).map (·.2)) := by
    rw [get_annotations, gaScan_append_no_star col pre (tokStar :: post) 0 [] [] hpre]
    simp only [gaScan, hcol, hstar, if_true]
    simp
  refine ⟨hmain, hmain.trans ?_⟩
  rw [get_annotations, gaScan_decomp col pre 0 [] [] hok]
  simp

/-- Closed witness for C5: the stream [Quote:7, Quote:7, *[9], Quote:7]
stops at the star token; Quote keeps end index 1 and is not lengthened by
the trailing token. -/
theorem c5_star_truncation_witness :
    (∀ t ∈ [["Quote:7".toList], ["Quote:7".toList]], tokNoStar 0 t = true) ∧
    (["*[9]".toList] : List (List Char))[0]? = some ("*[9]".toList) ∧
    hasSub ['*'] ("*[9]".toList) = true ∧
    get_annotations [["Quote:7".toList], ["Quote:7".toList], ["*[9]".toList],
        ["Quote:7".toList]] 0
      = some (eagerTsv 0 [["Quote:7".toList], ["Quote:7".toList]] 0
          ++ (accTsv 0 [["Quote:7".toList], ["Quote:7".toList]] 0 []).map (·.2)) ∧
    get_annotations [["Quote:7".toList], ["Quote:7".toList], ["*[9]".toList],
        ["Quote:7".toList]] 0 = some [⟨"Quote".toList, 0, 1⟩] :=
  ⟨by decide, by decide, by decide,
    (c5_star_truncation 0 [["Quote:7".toList], ["Quote:7".toList]] ["*[9]".toList]
      [["Quote:7".toList]] ("*[9]".toList) (by decide) (by decide) (by decide)).1,
    by decide⟩

/-! ### Claim C6: the output depends only on the chosen annotator's data -/

/-- View of a sentence that only retains, per token and in token order, the
token's position id together with its annotations by the given annotator;
tokens with none of that annotator's annotations are dropped. -/
def annotatorView (s : Sentence) (a : List Char) : List (Int × List TokenAnnotation) :=
  (s.tokens.map (fun t => (t.id, t.annotations.filter (fun ta => ta.annotator == a)))).filter
    (fun pr => !pr.2.isEmpty)

/-- Aggregation over a view. -/
def viewScan (a : List Char) : List (Int × List TokenAnnotation) →
    List Annotation × List (Int × Annotation) → List Annotation × List (Int × Annotation)
  | [], st => st
  | pr :: rest, st => viewScan a rest (docRefs a pr.1 pr.2 st)

/-- Sentence with only the given annotator's TokenAnnotations retained. -/
def filterSentence (a : List Char) (s : Sentence) : Sentence :=
  ⟨s.id, s.tokens.map
    (fun t => { t with annotations := t.annotations.filter (fun ta => ta.annotator == a) })⟩

theorem docRefs_filter (a : List Char) (tid : Int) (tas : List TokenAnnotation) :
    ∀ st, docRefs a tid tas st
      = docRefs a tid (tas.filter (fun ta => ta.annotator == a)) st := by
  induction tas with
  | nil => intro st; rfl
  | cons ta rest ih =>
    intro st
    by_cases ha : (ta.annotator == a) = true
    · rw [docRefs, List.filter_cons]
      simp only [ha, if_true]
      rw [docRefs]
      exact ih (docStep a tid st ta)
    · have hstep : docStep a tid st ta = st := by
        simp [docStep, ha]
      rw [docRefs, hstep, List.filter_cons]
      simp only [ha, Bool.false_eq_true, if_false]
      exact ih st

theorem docScan_eq_view (a : List Char) (toks : List Token) :
    ∀ st, docScan a toks st
      = viewScan a ((toks.map (fun t => (t.id, t.annotations.filter
          (fun ta => ta.annotator == a)))).filter (fun pr => !pr.2.isEmpty)) st := by
  induction toks with
  | nil => intro st; rfl
  | cons tok rest ih =>
    intro st
    rw [docScan, List.map_cons, List.filter_cons]
    by_cases hemp : (tok.annotations.filter (fun ta => ta.annotator == a)).isEmpty = true
    · have hfe : tok.annotations.filter (fun ta => ta.annotator == a) = [] :=
        List.isEmpty_iff.1 hemp
      have hrefs : docRefs a tok.id tok.annotations st = st := by
        rw [docRefs_filter a tok.id tok.annotations st, hfe]
        rfl
      simp only [hemp, Bool.not_true, Bool.false_eq_true, if_false]
      rw [hrefs]
      exact ih st
    · have hne : (!(tok.annotations.filter (fun ta => ta.annotator == a)).isEmpty) = true := by
        simp only [Bool.not_eq_true'] at hemp ⊢
        cases hx : (tok.annotations.filter (fun ta => ta.annotator == a)).isEmpty
        · rfl
        · exact absurd hx hemp
      simp only [hne, if_true]
      rw [viewScan]
      simp only []
      rw [← docRefs_filter a tok.id tok.annotations st]
      exact ih (docRefs a tok.id tok.annotations st)

theorem ga_eq_view (s : Sentence) (a : List Char) :
    Sentence.get_annotations s a
      = (viewScan a (annotatorView s a) ([], [])).1
        ++ (viewScan a (annotatorView s a) ([], [])).2.map (·.2) := by
  rw [Sentence.get_annotations]
  rw [docScan_eq_view a s.tokens ([], [])]
  rfl

/-- C6 (confirmed): Sentence.get_annotations depends only on the chosen
annotator's TokenAnnotations at their token positions: two sentences that
agree on the view of annotator a (token ids with that annotator's
annotations, in token order) give identical output, and deleting all other
annotators' TokenAnnotations changes nothing, so those can neither open
nor extend any span. -/
theorem c6_annotator_isolation :
    (∀ (s1 s2 : Sentence) (a : List Char), annotatorView s1 a = annotatorView s2 a →
      Sentence.get_annotations s1 a = Sentence.get_annotations s2 a) ∧
    (∀ (s : Sentence) (a : List Char),
      Sentence.get_annotations s a = Sentence.get_annotations (filterSentence a s) a) := by
  constructor
  · intro s1 s2 a h
    rw [ga_eq_view s1 a, ga_eq_view s2 a, h]
  · intro s a
    have hview : annotatorView (filterSentence a s) a = annotatorView s a := by
      rw [annotatorView, annotatorView, filterSentence]
      simp only [List.map_map]
      congr 1
      apply List.map_congr_left
      intro t _
      simp only [Function.comp]
      rw [List.filter_filter]
      congr 1
      apply List.filter_congr
      intro x _
      exact Bool.and_self _
    rw [ga_eq_view s a, ga_eq_view (filterSentence a s) a, hview]

/-- Closed witness for C6: a bob annotation sharing id 7 with nothing of
alice's neither opens nor extends a span for the query about alice. -/
theorem c6_annotator_isolation_witness :
    annotatorView ⟨none, [⟨"w".toList, 0, [⟨"A".toList, -1, "alice".toList⟩,
        ⟨"B".toList, 7, "bob".toList⟩]⟩]⟩ ("alice".toList)
      = annotatorView ⟨none, [⟨"w".toList, 0, [⟨"A".toList, -1, "alice".toList⟩]⟩]⟩
          ("alice".toList) ∧
    Sentence.get_annotations ⟨none, [⟨"w".toList, 0, [⟨"A".toList, -1, "alice".toList⟩,
        ⟨"B".toList, 7, "bob".toList⟩]⟩]⟩ ("alice".toList)
      = Sentence.get_annotations ⟨none, [⟨"w".toList, 0,
          [⟨"A".toList, -1, "alice".toList⟩]⟩]⟩ ("alice".toList) :=
  ⟨by decide, c6_annotator_isolation.1 _ _ ("alice".toList) (by decide)⟩

/-! ### Claim C8: every produced span has end at least start -/

theorem refsStep_bounds (i : Nat) (ann : List Char) (acc acc2 : List (List Char × Span))
    (hstep : refsStep i acc ann = some acc2)
    (hinv : ∀ kv ∈ acc, kv.2.start ≤ kv.2.stop ∧ kv.2.stop ≤ i) :
    ∀ kv ∈ acc2, kv.2.start ≤ kv.2.stop ∧ kv.2.stop ≤ i := by
  rw [refsStep] at hstep
  rcases hsp : splitOnChar ':' ann with _ | ⟨c1, _ | ⟨c2, _ | ⟨c3, tl⟩⟩⟩ <;>
    rw [hsp] at hstep <;> simp only [] at hstep <;>
    try exact absurd hstep Option.noConfusion
  rcases hpy : pyInt c2 with _ | n <;> rw [hpy] at hstep
  · exact absurd hstep Option.noConfusion
  · simp only [] at hstep
    by_cases hmem : (acc.any fun kv => kv.1 == ann) = true
    · rw [if_pos hmem] at hstep
      obtain rfl := Option.some_inj.1 hstep
      intro kv hkv
      rw [updStop] at hkv
      obtain ⟨kv0, hkv0, hmap⟩ := List.mem_map.1 hkv
      obtain ⟨h1, h2⟩ := hinv kv0 hkv0
      by_cases heq : (kv0.1 == ann) = true
      · rw [if_pos heq] at hmap
        rw [← hmap]
        exact ⟨le_trans h1 h2, Nat.le_refl i⟩
      · rw [if_neg heq] at hmap
        rw [← hmap]
        exact ⟨h1, h2⟩
    · rw [if_neg hmem] at hstep
      obtain rfl := Option.some_inj.1 hstep
      intro kv hkv
      rcases List.mem_append.1 hkv with hold | hnew
      · exact hinv kv hold
      · simp only [List.mem_singleton] at hnew
        rw [hnew]
        exact ⟨Nat.le_refl i, Nat.le_refl i⟩

theorem refsFold_bounds (i : Nat) (refs : List (List Char)) :
    ∀ (acc acc2 : List (List Char × Span)), refsFold i refs acc = some acc2 →
    (∀ kv ∈ acc, kv.2.start ≤ kv.2.stop ∧ kv.2.stop ≤ i) →
    (∀ kv ∈ acc2, kv.2.start ≤ kv.2.stop ∧ kv.2.stop ≤ i) := by
  induction refs with
  | nil =>
    intro acc acc2 h hinv
    rw [refsFold] at h
    obtain rfl := Option.some_inj.1 h
    exact hinv
  | cons ann rest ih =>
    intro acc acc2 h hinv
    rw [refsFold] at h
    rcases hstep : refsStep i acc ann with _ | accm <;> rw [hstep] at h
    · exact absurd h Option.noConfusion
    · exact ih accm acc2 h (refsStep_bounds i ann acc accm hstep hinv)

theorem gaScan_bounds (col : Nat) (toks : List (List (List Char))) :
    ∀ (i : Nat) (out : List Span) (acc : List (List Char × Span))
      (res : List Span × List (List Char × Span)),
    gaScan col toks i out acc = some res →
    (∀ sp ∈ out, sp.start ≤ sp.stop) →
    (∀ kv ∈ acc, kv.2.start ≤ kv.2.stop ∧ kv.2.stop ≤ i) →
    (∀ sp ∈ res.1, sp.start ≤ sp.stop) ∧ (∀ kv ∈ res.2, kv.2.start ≤ kv.2.stop) := by
  induction toks with
  | nil =>
    intro i out acc res h hout hinv
    rw [gaScan] at h
    obtain rfl := Option.some_inj.1 h
    exact ⟨hout, fun kv hkv => (hinv kv hkv).1⟩
  | cons tok rest ih =>
    intro i out acc res h hout hinv
    have hweak : ∀ kv ∈ acc, kv.2.start ≤ kv.2.stop ∧ kv.2.stop ≤ i + 1 :=
      fun kv hkv => ⟨(hinv kv hkv).1, Nat.le_succ_of_le (hinv kv hkv).2⟩
    rw [gaScan] at h
    rcases hcol : tok[col]? with _ | label <;> rw [hcol] at h
    · exact absurd h Option.noConfusion
    · simp only [] at h
      by_cases hstar : (hasSub ['*'] label) = true
      · rw [if_pos hstar] at h
        obtain rfl := Option.some_inj.1 h
        exact ⟨hout, fun kv hkv => (hinv kv hkv).1⟩
      · rw [if_neg hstar] at h
        by_cases hund : (label == ['_']) = true
        · rw [if_pos hund] at h
          exact ih (i + 1) out acc res h hout hweak
        · rw [if_neg hund] at h
          by_cases hneg : (hasSub ['-', '1'] label) = true
          · rw [if_pos hneg] at h
            rcases hj : indexOfChar? ':' label with _ | j <;> rw [hj] at h
            · exact absurd h Option.noConfusion
            · refine ih (i + 1) (out ++ [⟨label.take j, i, i⟩]) acc res h ?_ hweak
              intro sp hsp
              rcases List.mem_append.1 hsp with hold | hnew
              · exact hout sp hold
              · simp only [List.mem_singleton] at hnew
                rw [hnew]
          · rw [if_neg hneg] at h
            rcases hrf : refsFold i (splitOnChar '|' label) acc with _ | acc2 <;>
              rw [hrf] at h
            · exact absurd h Option.noConfusion
            · refine ih (i + 1) out acc2 res h hout ?_
              intro kv hkv
              have := refsFold_bounds i (splitOnChar '|' label) acc acc2 hrf hinv kv hkv
              exact ⟨this.1, Nat.le_succ_of_le this.2⟩

theorem eagerRefs_bounds (a : List Char) (tid : Int) (tas : List TokenAnnotation) :
    ∀ sp ∈ eagerRefs a tid tas, sp.start ≤ sp.stop := by
  intro sp hsp
  rw [eagerRefs] at hsp
  obtain ⟨ta, _, hmap⟩ := List.mem_map.1 hsp
  rw [← hmap]

theorem eagerDoc_bounds (a : List Char) (toks : List Token) :
    ∀ sp ∈ eagerDoc a toks, sp.start ≤ sp.stop := by
  induction toks with
  | nil => intro sp hsp; exact absurd hsp (List.not_mem_nil sp)
  | cons tok rest ih =>
    intro sp hsp
    rw [eagerDoc] at hsp
    rcases List.mem_append.1 hsp with h1 | h2
    · exact eagerRefs_bounds a tok.id tok.annotations sp h1
    · exact ih sp h2

theorem accStep_bounds (a : List Char) (tid : Int) (acc : List (Int × Annotation))
    (ta : TokenAnnotation)
    (hinv : ∀ kv ∈ acc, kv.2.start ≤ kv.2.stop ∧ kv.2.stop ≤ tid) :
    ∀ kv ∈ accStep a tid acc ta, kv.2.start ≤ kv.2.stop ∧ kv.2.stop ≤ tid := by
  rw [accStep]
  by_cases hcond : (ta.annotator == a && !(ta.id == -1)) = true
  · rw [if_pos hcond]
    by_cases hmem : (acc.any fun kv => kv.1 == ta.id) = true
    · rw [if_pos hmem]
      intro kv hkv
      rw [updStopDoc] at hkv
      obtain ⟨kv0, hkv0, hmap⟩ := List.mem_map.1 hkv
      obtain ⟨h1, h2⟩ := hinv kv0 hkv0
      by_cases heq : (kv0.1 == ta.id) = true
      · rw [if_pos heq] at hmap
        rw [← hmap]
        exact ⟨le_trans h1 h2, le_refl tid⟩
      · rw [if_neg heq] at hmap
        rw [← hmap]
        exact ⟨h1, h2⟩
    · rw [if_neg hmem]
      intro kv hkv
      rcases List.mem_append.1 hkv with hold | hnew
      · exact hinv kv hold
      · simp only [List.mem_singleton] at hnew
        rw [hnew]
        exact ⟨le_refl tid, le_refl tid⟩
  · rw [if_neg hcond]
    exact hinv

theorem accRefs_bounds (a : List Char) (tid : Int) (tas : List TokenAnnotation) :
    ∀ (acc : List (Int × Annotation)),
    (∀ kv ∈ acc, kv.2.start ≤ kv.2.stop ∧ kv.2.stop ≤ tid) →
    ∀ kv ∈ accRefs a tid tas acc, kv.2.start ≤ kv.2.stop ∧ kv.2.stop ≤ tid := by
  induction tas with
  | nil => intro acc hinv; exact hinv
  | cons ta rest ih =>
    intro acc hinv
    rw [accRefs]
    exact ih (accStep a tid acc ta) (accStep_bounds a tid acc ta hinv)

theorem accDoc_bounds (a : List Char) (toks : List Token) :
    ∀ (acc : List (Int × Annotation)) (b : Int),
    (∀ kv ∈ acc, kv.2.start ≤ kv.2.stop ∧ kv.2.stop ≤ b) →
    (∀ t ∈ toks, b ≤ t.id) →
    List.Pairwise (fun x y => x ≤ y) (toks.map (·.id)) →
    ∀ kv ∈ accDoc a toks acc, kv.2.start ≤ kv.2.stop := by
  induction toks with
  | nil =>
    intro acc b hinv _ _ kv hkv
    exact (hinv kv hkv).1
  | cons tok rest ih =>
    intro acc b hinv hlb hpw
    rw [accDoc]
    have hinv2 : ∀ kv ∈ acc, kv.2.start ≤ kv.2.stop ∧ kv.2.stop ≤ tok.id := by
      intro kv hkv
      exact ⟨(hinv kv hkv).1,
        le_trans (hinv kv hkv).2 (hlb tok (List.mem_cons_self tok rest))⟩
    rw [List.map_cons, List.pairwise_cons] at hpw
    refine ih (accRefs a tok.id tok.annotations acc) tok.id
      (accRefs_bounds a tok.id tok.annotations acc hinv2) ?_ hpw.2
    intro t ht
    exact hpw.1 t.id (List.mem_map_of_mem (·.id) ht)

/-- C8 (confirmed): every span either aggregator produces has its inclusive
end index at least its start index: unconditionally for the simplified-row
aggregator whenever it returns a result, and for Sentence.get_annotations
under the precondition that the sentence's tokens carry ids 0..N-1 in list
order. -/
theorem c8_end_ge_start :
    (∀ (sentence : List (List (List Char))) (col : Nat) (res : List Span),
      get_annotations sentence col = some res → ∀ sp ∈ res, sp.start ≤ sp.stop) ∧
    (∀ (s : Sentence) (a : List Char),
      s.tokens.map (·.id) = (List.range s.tokens.length).map Int.ofNat →
      ∀ ann ∈ Sentence.get_annotations s a, ann.start ≤ ann.stop) := by
  constructor
  · intro sentence col res h sp hsp
    rw [get_annotations] at h
    rcases hga : gaScan col sentence 0 [] [] with _ | pr <;> rw [hga] at h
    · exact absurd h Option.noConfusion
    · rw [Option.map_some'] at h
      obtain rfl := Option.some_inj.1 h
      obtain ⟨hout, hacc⟩ := gaScan_bounds col sentence 0 [] [] pr hga
        (fun sp hsp => absurd hsp (List.not_mem_nil sp))
        (fun kv hkv => absurd hkv (List.not_mem_nil kv))
      rcases List.mem_append.1 hsp with h1 | h2
      · exact hout sp h1
      · obtain ⟨kv, hkv, hmap⟩ := List.mem_map.1 h2
        rw [← hmap]
        exact hacc kv hkv
  · intro s a hmap ann hann
    rw [Sentence.get_annotations, docScan_decomp a s.tokens [] []] at hann
    simp only [List.nil_append] at hann
    rcases List.mem_append.1 hann with h1 | h2
    · exact eagerDoc_bounds a s.tokens ann h1
    · obtain ⟨kv, hkv, hmap2⟩ := List.mem_map.1 h2
      rw [← hmap2]
      have hpw : List.Pairwise (fun x y => x ≤ y) (s.tokens.map (·.id)) := by
        rw [hmap]
        rw [List.pairwise_map]
        exact (List.pairwise_lt_range s.tokens.length).imp
          (fun hxy => Int.ofNat_le.2 (Nat.le_of_lt hxy))
      have hlb : ∀ t ∈ s.tokens, (0 : Int) ≤ t.id := by
        intro t ht
        have hm : t.id ∈ s.tokens.map (·.id) := List.mem_map_of_mem (·.id) ht
        rw [hmap] at hm
        obtain ⟨k, _, hk⟩ := List.mem_map.1 hm
        rw [← hk]
        exact Int.ofNat_nonneg k
      exact accDoc_bounds a s.tokens [] 0
        (fun kv hkv => absurd hkv (List.not_mem_nil kv)) hlb hpw kv hkv

/-- Closed witness for C8, instantiating both conjuncts on concrete
sentences. -/
theorem c8_end_ge_start_witness :
    get_annotations [["Quote:7".toList], ["Quote:7".toList]] 0
      = some [⟨"Quote".toList, 0, 1⟩] ∧
    (∀ sp ∈ [(⟨"Quote".toList, 0, 1⟩ : Span)], sp.start ≤ sp.stop) ∧
    ([⟨"w".toList, 0, [⟨"A".toList, -1, []⟩]⟩] : List Token).map (·.id)
      = (List.range 1).map Int.ofNat ∧
    (∀ ann ∈ Sentence.get_annotations ⟨none, [⟨"w".toList, 0, [⟨"A".toList, -1, []⟩]⟩]⟩ [],
      ann.start ≤ ann.stop) :=
  ⟨by decide,
    c8_end_ge_start.1 [["Quote:7".toList], ["Quote:7".toList]] 0 _ (by decide),
    by decide,
    c8_end_ge_start.2 ⟨none, [⟨"w".toList, 0, [⟨"A".toList, -1, []⟩]⟩]⟩ [] (by decide)⟩

/-! ### Claim C7: the two aggregator call sites -/

/-- Simplified-label text of one (category, id) reference. -/
def encodePair (p : List Char × Int) : List Char :=
  p.1 ++ ':' :: intToChars p.2

/-- Simplified-label text of one token's references; a token without
references carries the underscore. -/
def encodeLabel (l : List (List Char × Int)) : List Char :=
  if l.isEmpty then ['_'] else joinChar '|' (l.map encodePair)

/-- Simplified-row sentence carrying the given references token by token,
with the label in cell 0. -/
def encodeSentence (refs : List (List (List Char × Int))) : List (List (List Char)) :=
  refs.map (fun l => [encodeLabel l])

/-- Tokens of a Sentence carrying the given references for one annotator,
with ids 0..N-1 in list order. -/
def mkTokens (a : List Char) : List (List (List Char × Int)) → Nat → List Token
  | [], _ => []
  | l :: rest, k =>
    ⟨[], (k : Int), l.map (fun p => ⟨p.1, p.2, a⟩)⟩ :: mkTokens a rest (k + 1)

/-- Sentence carrying the given references for one annotator. -/
def mkSentence (a : List Char) (refs : List (List (List Char × Int))) : Sentence :=
  ⟨none, mkTokens a refs 0⟩

/-- Reference model of the shared aggregation logic, keyed by annotation
id: one reference step. -/
def raStep (i : Nat) (st : List (List Char × Nat × Nat) × List (Int × (List Char × Nat × Nat)))
    (p : List Char × Int) :
    List (List Char × Nat × Nat) × List (Int × (List Char × Nat × Nat)) :=
  if p.2 == -1 then (st.1 ++ [(p.1, i, i)], st.2)
  else if st.2.any (fun kv => kv.1 == p.2) then
    (st.1, st.2.map (fun kv => if kv.1 == p.2 then (kv.1, (kv.2.1, kv.2.2.1, i)) else kv))
  else (st.1, st.2 ++ [(p.2, (p.1, i, i))])

/-- Reference model: one token's references in order. -/
def raRefs (i : Nat) : List (List Char × Int) →
    List (List Char × Nat × Nat) × List (Int × (List Char × Nat × Nat)) →
    List (List Char × Nat × Nat) × List (Int × (List Char × Nat × Nat))
  | [], st => st
  | p :: rest, st => raRefs i rest (raStep i st p)

/-- Reference model: token scan with enumeration index. -/
def raScan : List (List (List Char × Int)) → Nat →
    List (List Char × Nat × Nat) × List (Int × (List Char × Nat × Nat)) →
    List (List Char × Nat × Nat) × List (Int × (List Char × Nat × Nat))
  | [], _, st => st
  | l :: rest, i, st => raScan rest (i + 1) (raRefs i l st)

/-- Reference model of both aggregation call sites: sentinel spans in scan
order, then accumulator values in first-insertion order, as
(category, start, end) triples over token positions. -/
def refAgg (refs : List (List (List Char × Int))) : List (List Char × Nat × Nat) :=
  let st := raScan refs 0 ([], [])
  st.1 ++ st.2.map (·.2)

/-- Span built from a reference triple. -/
def toSpan (tr : List Char × Nat × Nat) : Span := ⟨tr.1, tr.2.1, tr.2.2⟩

/-- Annotation built from a reference triple. -/
def toAnn (tr : List Char × Nat × Nat) : Annotation :=
  ⟨tr.1, (tr.2.1 : Int), (tr.2.2 : Int), []⟩

/-- Accumulator entry of the object-model aggregator built from a keyed
reference triple. -/
def toAccEntry (kv : Int × (List Char × Nat × Nat)) : Int × Annotation :=
  (kv.1, toAnn kv.2)

/-- Simplified-row accumulator entry built from a keyed reference triple:
the key is the annotation text itself. -/
def toTsvEntry (kv : Int × (List Char × Nat × Nat)) : List Char × Span :=
  (kv.2.1 ++ ':' :: intToChars kv.1, toSpan kv.2)

/-- Categories that survive the textual round trip: no separator, star or
hyphen characters. -/
def catClean (c : List Char) : Bool :=
  c.all (fun ch => !(ch == ':') && !(ch == '|') && !(ch == '*') && !(ch == '-'))

/-- A token's references as both aggregators can process them identically:
either one lone sentinel reference or only non-sentinel, non-negative ids. -/
def tokenWf (l : List (List Char × Int)) : Bool :=
  l.all (fun p => decide (0 ≤ p.2)) ||
    (match l with
     | [p] => p.2 == -1
     | _ => false)

/-- Within one stream the same id always carries the same category. -/
def SameIdSameCat (refs : List (List (List Char × Int))) : Prop :=
  ∀ l1 ∈ refs, ∀ p1 ∈ l1, ∀ l2 ∈ refs, ∀ p2 ∈ l2,
    p1.2 = p2.2 → p1.1 = p2.1

/-- C7 counterexample: the two aggregators disagree on equivalent inputs
because the simplified-row accumulator is keyed by the full annotation
text while the object-model accumulator is keyed by the id alone.  Two
tokens carrying (A, id 7) and (B, id 7) yield two one-token spans from the
row aggregator but a single merged A span from the object model. -/
theorem c7_counterexample :
    (get_annotations (encodeSentence [[("A".toList, 7)], [("B".toList, 7)]]) 0).map
        (fun l => l.map (fun sp => (sp.category, (sp.start : Int), (sp.stop : Int))))
      = some [("A".toList, (0 : Int), (0 : Int)), ("B".toList, 1, 1)] ∧
    (Sentence.get_annotations (mkSentence ("x".toList) [[("A".toList, 7)], [("B".toList, 7)]])
        ("x".toList)).map (fun an => (an.category, an.start, an.stop))
      = [("A".toList, (0 : Int), (1 : Int))] ∧
    ¬ ((get_annotations (encodeSentence [[("A".toList, 7)], [("B".toList, 7)]]) 0).map
        (fun l => l.map (fun sp => (sp.category, (sp.start : Int), (sp.stop : Int))))
      = some ((Sentence.get_annotations
          (mkSentence ("x".toList) [[("A".toList, 7)], [("B".toList, 7)]])
          ("x".toList)).map (fun an => (an.category, an.start, an.stop)))) :=
  ⟨by decide, by decide, by decide⟩

theorem any_map_list {α β : Type} (l : List α) (f : α → β) (p : β → Bool) :
    (l.map f).any p = l.any (fun x => p (f x)) := by
  induction l with
  | nil => rfl
  | cons x rest ih => simp [List.any_cons, ih]

theorem docRefs_ra (a : List Char) (k : Nat) (l : List (List Char × Int)) :
    ∀ (out : List (List Char × Nat × Nat)) (acc : List (Int × (List Char × Nat × Nat))),
    docRefs a (k : Int) (l.map (fun p => ⟨p.1, p.2, a⟩)) (out.map toAnn, acc.map toAccEntry)
      = ((raRefs k l (out, acc)).1.map toAnn, (raRefs k l (out, acc)).2.map toAccEntry) := by
  induction l with
  | nil => intro out acc; rfl
  | cons p rest ih =>
    intro out acc
    rw [List.map_cons, docRefs, raRefs]
    have hself : (a == a) = true := by simp
    by_cases hid : (p.2 == -1) = true
    · have hstep : docStep a (k : Int) (out.map toAnn, acc.map toAccEntry) ⟨p.1, p.2, a⟩
          = ((out ++ [(p.1, k, k)]).map toAnn, acc.map toAccEntry) := by
        simp only [docStep, hself, hid, if_true]
        rw [List.map_append]
        rfl
      have hra : raStep k (out, acc) p = (out ++ [(p.1, k, k)], acc) := by
        simp only [raStep, hid, if_true]
      rw [hstep, hra]
      exact ih (out ++ [(p.1, k, k)]) acc
    · have hmem : ((acc.map toAccEntry).any fun kv => kv.1 == p.2)
          = (acc.any fun kv => kv.1 == p.2) := by
        rw [any_map_list]
        rfl
      by_cases hin : (acc.any fun kv => kv.1 == p.2) = true
      · have hstep : docStep a (k : Int) (out.map toAnn, acc.map toAccEntry) ⟨p.1, p.2, a⟩
            = (out.map toAnn,
               (acc.map (fun kv => if kv.1 == p.2 then (kv.1, (kv.2.1, kv.2.2.1, k))
                  else kv)).map toAccEntry) := by
          simp only [docStep, hself, hid, if_true, if_false, Bool.false_eq_true, hmem, hin]
          rw [updStopDoc, List.map_map, List.map_map]
          congr 1
          apply List.map_congr_left
          intro kv _
          simp only [Function.comp, toAccEntry]
          by_cases hk : (kv.1 == p.2) = true
          · rw [if_pos hk, if_pos hk]
            rfl
          · rw [if_neg hk, if_neg hk]
        have hra : raStep k (out, acc) p
            = (out, acc.map (fun kv => if kv.1 == p.2 then (kv.1, (kv.2.1, kv.2.2.1, k))
                else kv)) := by
          simp only [raStep, hid, if_false, Bool.false_eq_true, hin, if_true]
        rw [hstep, hra]
        exact ih out _
      · have hstep : docStep a (k : Int) (out.map toAnn, acc.map toAccEntry) ⟨p.1, p.2, a⟩
            = (out.map toAnn, (acc ++ [(p.2, (p.1, k, k))]).map toAccEntry) := by
          simp only [docStep, hself, hid, if_true, if_false, Bool.false_eq_true, hmem, hin]
          rw [List.map_append]
          rfl
        have hra : raStep k (out, acc) p = (out, acc ++ [(p.2, (p.1, k, k))]) := by
          simp only [raStep, hid, if_false, Bool.false_eq_true, hin]
        rw [hstep, hra]
        exact ih out _

theorem docScan_ra (a : List Char) (refs : List (List (List Char × Int))) :
    ∀ (k : Nat) (out : List (List Char × Nat × Nat))
      (acc : List (Int × (List Char × Nat × Nat))),
    docScan a (mkTokens a refs k) (out.map toAnn, acc.map toAccEntry)
      = ((raScan refs k (out, acc)).1.map toAnn, (raScan refs k (out, acc)).2.map toAccEntry) := by
  induction refs with
  | nil => intro k out acc; rfl
  | cons l rest ih =>
    intro k out acc
    rw [mkTokens, docScan, raScan]
    simp only []
    rw [docRefs_ra a k l out acc]
    rcases hra : raRefs k l (out, acc) with ⟨out2, acc2⟩
    exact ih (k + 1) out2 acc2

theorem mk_get_annotations_ra (a : List Char) (refs : List (List (List Char × Int))) :
    Sentence.get_annotations (mkSentence a refs) a = (refAgg refs).map toAnn := by
  rw [Sentence.get_annotations, refAgg]
  have htoks : (mkSentence a refs).tokens = mkTokens a refs 0 := rfl
  have hinit : (([], []) : List Annotation × List (Int × Annotation))
      = (([] : List (List Char × Nat × Nat)).map toAnn,
         ([] : List (Int × (List Char × Nat × Nat))).map toAccEntry) := rfl
  rw [htoks, hinit, docScan_ra a refs 0 [] []]
  rcases raScan refs 0 ([], []) with ⟨out, acc⟩
  simp only [List.map_append, List.map_map]
  rfl

theorem listStarts_self : ∀ l : List Char, listStarts l l = true
  | [] => rfl
  | c :: rest => by simp [listStarts, listStarts_self rest]

theorem hasSub_of_suffix (pat : List Char) : ∀ xs : List Char, hasSub pat (xs ++ pat) = true := by
  intro xs
  induction xs with
  | nil =>
    cases pat with
    | nil => rfl
    | cons c rest =>
      show hasSub (c :: rest) (c :: rest) = true
      rw [hasSub, listStarts_self]
      rfl
  | cons x xs ih =>
    rw [List.cons_append, hasSub, ih]
    simp

theorem hasSub_head_mem (ch : Char) (pat : List Char) :
    ∀ l : List Char, hasSub (ch :: pat) l = true → ch ∈ l := by
  intro l
  induction l with
  | nil =>
    intro h
    rw [hasSub] at h
    exact absurd h (by rw [listStarts]; exact Bool.false_ne_true)
  | cons x xs ih =>
    intro h
    rw [hasSub, Bool.or_eq_true] at h
    rcases h with h1 | h2
    · rw [listStarts, Bool.and_eq_true, beq_iff_eq] at h1
      rw [h1.1]
      exact List.mem_cons_self x xs
    · exact List.mem_cons_of_mem x (ih h2)

theorem hasSub_false_of_head_not_mem (ch : Char) (pat l : List Char) (h : ch ∉ l) :
    hasSub (ch :: pat) l = false := by
  cases hx : hasSub (ch :: pat) l
  · rfl
  · exact absurd (hasSub_head_mem ch pat l hx) h

theorem mem_joinChar (sep : Char) (ch : Char) :
    ∀ parts : List (List Char), ch ∈ joinChar sep parts →
      ch = sep ∨ ∃ p ∈ parts, ch ∈ p := by
  intro parts
  induction parts with
  | nil => intro h; exact absurd h (List.not_mem_nil ch)
  | cons p ps ih =>
    cases ps with
    | nil =>
      intro h
      exact Or.inr ⟨p, List.mem_cons_self p [], h⟩
    | cons q qs =>
      intro h
      have hj : ch ∈ p ++ sep :: joinChar sep (q :: qs) := h
      rcases List.mem_append.1 hj with h1 | h2
      · exact Or.inr ⟨p, List.mem_cons_self p (q :: qs), h1⟩
      · rcases List.mem_cons.1 h2 with h3 | h4
        · exact Or.inl h3
        · rcases ih h4 with h5 | ⟨r, hr, hmem⟩
          · exact Or.inl h5
          · exact Or.inr ⟨r, List.mem_cons_of_mem p hr, hmem⟩

theorem catClean_spec (c : List Char) (h : catClean c = true) :
    ':' ∉ c ∧ '|' ∉ c ∧ '*' ∉ c ∧ '-' ∉ c := by
  rw [catClean, List.all_eq_true] at h
  refine ⟨fun hm => ?_, fun hm => ?_, fun hm => ?_, fun hm => ?_⟩ <;>
    have hx := h _ hm <;> simp at hx

theorem intToChars_digits (i : Int) (h : 0 ≤ i) :
    ∀ ch ∈ intToChars i, ch.isDigit = true := by
  rw [intToChars, if_neg (by omega : ¬ i < 0)]
  exact natToChars_all_digits i.toNat

theorem digit_ne_special (ch : Char) (hd : ch.isDigit = true) :
    ch ≠ ':' ∧ ch ≠ '|' ∧ ch ≠ '*' ∧ ch ≠ '-' ∧ ch ≠ '_' := by
  refine ⟨?_, ?_, ?_, ?_, ?_⟩ <;> intro he <;> rw [he] at hd <;> exact absurd hd (by decide)

theorem sep_decomp_unique (ch : Char) (c : List Char) : ∀ c0 t t0 : List Char,
    ch ∉ c → ch ∉ c0 → c ++ ch :: t = c0 ++ ch :: t0 → c = c0 ∧ t = t0 := by
  induction c with
  | nil =>
    intro c0 t t0 _ hc0 h
    cases c0 with
    | nil => simpa using h
    | cons x c0' =>
      simp only [List.nil_append, List.cons_append, List.cons.injEq] at h
      obtain ⟨hx, _⟩ := h
      exact absurd (hx ▸ List.mem_cons_self x c0') hc0
  | cons x c' ih =>
    intro c0 t t0 hc hc0 h
    cases c0 with
    | nil =>
      simp only [List.cons_append, List.nil_append, List.cons.injEq] at h
      obtain ⟨hx, _⟩ := h
      exact absurd (hx ▸ List.mem_cons_self x c') hc
    | cons y c0' =>
      simp only [List.cons_append, List.cons.injEq] at h
      obtain ⟨hxy, htail⟩ := h
      have hc' : ch ∉ c' := fun hm => hc (List.mem_cons_of_mem x hm)
      have hc0' : ch ∉ c0' := fun hm => hc0 (List.mem_cons_of_mem y hm)
      obtain ⟨h1, h2⟩ := ih c0' t t0 hc' hc0' htail
      exact ⟨by rw [hxy, h1], h2⟩

theorem intToChars_inj_nonneg (i1 i2 : Int) (h1 : 0 ≤ i1) (h2 : 0 ≤ i2)
    (h : intToChars i1 = intToChars i2) : i1 = i2 := by
  have r1 := pyInt_intToChars i1 h1
  rw [h, pyInt_intToChars i2 h2] at r1
  exact (Option.some_inj.1 r1).symm

theorem encodePair_eq_iff (c1 c2 : List Char) (i1 i2 : Int)
    (h1 : ':' ∉ c1) (h2 : ':' ∉ c2) (hn1 : 0 ≤ i1) (hn2 : 0 ≤ i2) :
    (c1 ++ ':' :: intToChars i1 = c2 ++ ':' :: intToChars i2) ↔ (c1 = c2 ∧ i1 = i2) := by
  constructor
  · intro h
    obtain ⟨hc, ht⟩ := sep_decomp_unique ':' c1 c2 _ _ h1 h2 h
    exact ⟨hc, intToChars_inj_nonneg i1 i2 hn1 hn2 ht⟩
  · intro ⟨hc, hi⟩
    rw [hc, hi]

theorem any_congr_mem {α : Type} (l : List α) (p q : α → Bool)
    (h : ∀ x ∈ l, p x = q x) : l.any p = l.any q := by
  induction l with
  | nil => rfl
  | cons x rest ih =>
    rw [List.any_cons, List.any_cons, h x (List.mem_cons_self x rest),
      ih (fun y hy => h y (List.mem_cons_of_mem x hy))]

/-- Accumulator-only reference step of the shared model, for non-sentinel
references. -/
def raAccStep (i : Nat) (acc : List (Int × (List Char × Nat × Nat))) (p : List Char × Int) :
    List (Int × (List Char × Nat × Nat)) :=
  if acc.any (fun kv => kv.1 == p.2) then
    acc.map (fun kv => if kv.1 == p.2 then (kv.1, (kv.2.1, kv.2.2.1, i)) else kv)
  else acc ++ [(p.2, (p.1, i, i))]

/-- Accumulator-only processing of one token's references. -/
def raAccRefs (i : Nat) : List (List Char × Int) → List (Int × (List Char × Nat × Nat)) →
    List (Int × (List Char × Nat × Nat))
  | [], acc => acc
  | p :: rest, acc => raAccRefs i rest (raAccStep i acc p)

theorem raRefs_nonneg (i : Nat) (l : List (List Char × Int)) :
    ∀ (out : List (List Char × Nat × Nat)) (acc : List (Int × (List Char × Nat × Nat))),
    (∀ p ∈ l, 0 ≤ p.2) →
    raRefs i l (out, acc) = (out, raAccRefs i l acc) := by
  induction l with
  | nil => intro out acc _; rfl
  | cons p rest ih =>
    intro out acc h
    have hp := h p (List.mem_cons_self p rest)
    have hne : ¬ (p.2 == -1) = true := by
      simp only [beq_iff_eq]
      omega
    have hstep : raStep i (out, acc) p = (out, raAccStep i acc p) := by
      rw [raStep, raAccStep, if_neg hne]
      split <;> rfl
    rw [raRefs, raAccRefs, hstep]
    exact ih out (raAccStep i acc p) (fun q hq => h q (List.mem_cons_of_mem p hq))

/-- Provenance of an accumulator entry: its category and id occur together
in some token of the original stream, and the id is non-negative. -/
def Prov (refs0 : List (List (List Char × Int))) (kv : Int × (List Char × Nat × Nat)) : Prop :=
  ∃ tl ∈ refs0, (kv.2.1, kv.1) ∈ tl ∧ 0 ≤ kv.1

theorem raAccStep_prov (refs0 : List (List (List Char × Int))) (i : Nat)
    (acc : List (Int × (List Char × Nat × Nat))) (p : List Char × Int)
    (hacc : ∀ kv ∈ acc, Prov refs0 kv)
    (hp : ∃ tl ∈ refs0, p ∈ tl) (hnn : 0 ≤ p.2) :
    ∀ kv ∈ raAccStep i acc p, Prov refs0 kv := by
  rw [raAccStep]
  by_cases hmem : (acc.any fun kv => kv.1 == p.2) = true
  · rw [if_pos hmem]
    intro kv hkv
    obtain ⟨kv0, hkv0, hmap⟩ := List.mem_map.1 hkv
    have hpr := hacc kv0 hkv0
    by_cases hk : (kv0.1 == p.2) = true
    · rw [if_pos hk] at hmap
      rw [← hmap]
      exact hpr
    · rw [if_neg hk] at hmap
      rw [← hmap]
      exact hpr
  · rw [if_neg hmem]
    intro kv hkv
    rcases List.mem_append.1 hkv with hold | hnew
    · exact hacc kv hold
    · simp only [List.mem_singleton] at hnew
      rw [hnew]
      obtain ⟨tl, htl, hmemp⟩ := hp
      exact ⟨tl, htl, hmemp, hnn⟩

theorem raAccRefs_prov (refs0 : List (List (List Char × Int))) (i : Nat)
    (l : List (List Char × Int)) :
    ∀ (acc : List (Int × (List Char × Nat × Nat))),
    (∀ kv ∈ acc, Prov refs0 kv) →
    (∀ p ∈ l, 0 ≤ p.2 ∧ ∃ tl ∈ refs0, p ∈ tl) →
    ∀ kv ∈ raAccRefs i l acc, Prov refs0 kv := by
  induction l with
  | nil => intro acc hacc _; exact hacc
  | cons p rest ih =>
    intro acc hacc hl
    rw [raAccRefs]
    have hp := hl p (List.mem_cons_self p rest)
    exact ih (raAccStep i acc p)
      (raAccStep_prov refs0 i acc p hacc hp.2 hp.1)
      (fun q hq => hl q (List.mem_cons_of_mem p hq))

theorem key_eq_pointwise (refs0 : List (List (List Char × Int)))
    (hsame : SameIdSameCat refs0)
    (hcat : ∀ tl ∈ refs0, ∀ p ∈ tl, catClean p.1 = true)
    (c : List Char) (id : Int) (hid : 0 ≤ id)
    (hpmem : ∃ tl ∈ refs0, (c, id) ∈ tl)
    (kv : Int × (List Char × Nat × Nat)) (hkv : Prov refs0 kv) :
    ((kv.2.1 ++ ':' :: intToChars kv.1) == (c ++ ':' :: intToChars id)) = (kv.1 == id) := by
  obtain ⟨tl, htl, hmemkv, hkvnn⟩ := hkv
  obtain ⟨tl2, htl2, hmemp⟩ := hpmem
  have hcc : catClean c = true := hcat tl2 htl2 (c, id) hmemp
  have hck : catClean kv.2.1 = true := hcat tl htl (kv.2.1, kv.1) hmemkv
  have hcol : ':' ∉ c := (catClean_spec c hcc).1
  have hcolk : ':' ∉ kv.2.1 := (catClean_spec kv.2.1 hck).1
  by_cases hk : kv.1 = id
  · have hcateq : kv.2.1 = c :=
      hsame tl htl (kv.2.1, kv.1) hmemkv tl2 htl2 (c, id) hmemp hk
    rw [hcateq, hk]
    simp
  · have hL : ((kv.2.1 ++ ':' :: intToChars kv.1) == (c ++ ':' :: intToChars id)) = false := by
      cases hx : ((kv.2.1 ++ ':' :: intToChars kv.1) == (c ++ ':' :: intToChars id))
      · rfl
      · have heq := eq_of_beq hx
        exact absurd ((encodePair_eq_iff kv.2.1 c kv.1 id hcolk hcol hkvnn hid).1 heq).2 hk
    have hR : (kv.1 == id) = false := by
      simp [hk]
    rw [hL, hR]

theorem splitOnChar_encodePair (c : List Char) (id : Int) (hcol : ':' ∉ c) (hid : 0 ≤ id) :
    splitOnChar ':' (encodePair (c, id)) = [c, intToChars id] := by
  rw [encodePair]
  have hdig : ':' ∉ intToChars id := by
    intro hm
    exact absurd rfl (digit_ne_special ':' (intToChars_digits id hid ':' hm)).1
  rw [splitOnChar_sep_append ':' c (intToChars id) hcol,
    splitOnChar_no_sep ':' (intToChars id) hdig]

theorem refsFold_ra (refs0 : List (List (List Char × Int)))
    (hsame : SameIdSameCat refs0)
    (hcat : ∀ tl ∈ refs0, ∀ p ∈ tl, catClean p.1 = true) (i : Nat) :
    ∀ (l : List (List Char × Int)) (acc : List (Int × (List Char × Nat × Nat))),
    (∀ p ∈ l, 0 ≤ p.2 ∧ ∃ tl ∈ refs0, p ∈ tl) →
    (∀ kv ∈ acc, Prov refs0 kv) →
    refsFold i (l.map encodePair) (acc.map toTsvEntry)
      = some ((raAccRefs i l acc).map toTsvEntry) := by
  intro l
  induction l with
  | nil => intro acc _ _; rfl
  | cons p rest ih =>
    intro acc hl hacc
    obtain ⟨hnn, hmem⟩ := hl p (List.mem_cons_self p rest)
    rcases p with ⟨c, id⟩
    simp only at hnn hmem
    have hcc : catClean c = true := by
      obtain ⟨tl, htl, hm⟩ := hmem
      exact hcat tl htl (c, id) hm
    have hcol : ':' ∉ c := (catClean_spec c hcc).1
    have hsplit := splitOnChar_encodePair c id hcol hnn
    have hpy := pyInt_intToChars id hnn
    have hmemeq : ((acc.map toTsvEntry).any fun kv => kv.1 == encodePair (c, id))
        = (acc.any fun kv => kv.1 == id) := by
      rw [any_map_list]
      apply any_congr_mem
      intro kv hkv
      show ((kv.2.1 ++ ':' :: intToChars kv.1) == encodePair (c, id)) = (kv.1 == id)
      rw [encodePair]
      exact key_eq_pointwise refs0 hsame hcat c id hnn hmem kv (hacc kv hkv)
    have hstep : refsStep i (acc.map toTsvEntry) (encodePair (c, id))
        = some ((raAccStep i acc (c, id)).map toTsvEntry) := by
      rw [refsStep, hsplit]
      simp only []
      rw [hpy]
      simp only []
      rw [hmemeq, raAccStep]
      by_cases hin : (acc.any fun kv => kv.1 == id) = true
      · rw [if_pos hin, if_pos hin]
        congr 1
        rw [updStop, List.map_map, List.map_map]
        apply List.map_congr_left
        intro kv hkv
        simp only [Function.comp, toTsvEntry]
        have hcond : ((kv.2.1 ++ ':' :: intToChars kv.1) == encodePair (c, id))
            = (kv.1 == id) := by
          rw [encodePair]
          exact key_eq_pointwise refs0 hsame hcat c id hnn hmem kv (hacc kv hkv)
        by_cases hk : (kv.1 == id) = true
        · rw [hcond, if_pos hk, if_pos hk]
          rfl
        · rw [hcond, if_neg hk, if_neg hk]
      · rw [if_neg hin, if_neg hin]
        congr 1
        rw [List.map_append]
        rfl
    rw [List.map_cons, refsFold, hstep, raAccRefs]
    exact ih (raAccStep i acc (c, id))
      (fun q hq => hl q (List.mem_cons_of_mem (c, id) hq))
      (raAccStep_prov refs0 i acc (c, id) hacc hmem hnn)

theorem mem_joinChar_head (sep : Char) (ch : Char) (part : List Char)
    (ps : List (List Char)) (h : ch ∈ part) : ch ∈ joinChar sep (part :: ps) := by
  cases ps with
  | nil => exact h
  | cons q qs => exact List.mem_append.2 (Or.inl h)

theorem mem_encodeLabel_chars (l : List (List Char × Int)) (ch : Char)
    (hnn : ∀ p ∈ l, 0 ≤ p.2)
    (hm : ch ∈ joinChar '|' (l.map encodePair)) :
    ch = '|' ∨ ch = ':' ∨ ch.isDigit = true ∨ ∃ p ∈ l, ch ∈ p.1 := by
  rcases mem_joinChar '|' ch (l.map encodePair) hm with h1 | ⟨part, hpart, hmem⟩
  · exact Or.inl h1
  · obtain ⟨p, hp, hpe⟩ := List.mem_map.1 hpart
    rw [← hpe, encodePair] at hmem
    rcases List.mem_append.1 hmem with h2 | h3
    · exact Or.inr (Or.inr (Or.inr ⟨p, hp, h2⟩))
    · rcases List.mem_cons.1 h3 with h4 | h5
      · exact Or.inr (Or.inl h4)
      · exact Or.inr (Or.inr (Or.inl (intToChars_digits p.2 (hnn p hp) ch h5)))

theorem encodeLabel_no_star (l : List (List Char × Int))
    (hnn : ∀ p ∈ l, 0 ≤ p.2) (hcat : ∀ p ∈ l, catClean p.1 = true) :
    '*' ∉ joinChar '|' (l.map encodePair) := by
  intro hm
  rcases mem_encodeLabel_chars l '*' hnn hm with h1 | h2 | h3 | ⟨p, hp, hmem⟩
  · exact absurd h1 (by decide)
  · exact absurd h2 (by decide)
  · exact absurd h3 (by decide)
  · exact absurd hmem (catClean_spec p.1 (hcat p hp)).2.2.1

theorem encodeLabel_no_hyphen (l : List (List Char × Int))
    (hnn : ∀ p ∈ l, 0 ≤ p.2) (hcat : ∀ p ∈ l, catClean p.1 = true) :
    '-' ∉ joinChar '|' (l.map encodePair) := by
  intro hm
  rcases mem_encodeLabel_chars l '-' hnn hm with h1 | h2 | h3 | ⟨p, hp, hmem⟩
  · exact absurd h1 (by decide)
  · exact absurd h2 (by decide)
  · exact absurd h3 (by decide)
  · exact absurd hmem (catClean_spec p.1 (hcat p hp)).2.2.2

theorem encodeLabel_has_colon (p0 : List Char × Int) (l : List (List Char × Int)) :
    ':' ∈ joinChar '|' ((p0 :: l).map encodePair) := by
  rw [List.map_cons]
  refine mem_joinChar_head '|' ':' (encodePair p0) _ ?_
  rw [encodePair]
  exact List.mem_append.2 (Or.inr (List.mem_cons_self ':' _))

theorem ne_underscore_of_colon (label : List Char) (h : ':' ∈ label) :
    (label == ['_']) = false := by
  cases hx : label == ['_']
  · rfl
  · have he := eq_of_beq hx
    rw [he] at h
    simp only [List.mem_singleton] at h
    exact absurd h (by decide)

theorem encodePair_no_pipe (q : List Char × Int) (hnn : 0 ≤ q.2)
    (hcat : catClean q.1 = true) : '|' ∉ encodePair q := by
  intro hm
  rw [encodePair] at hm
  rcases List.mem_append.1 hm with h1 | h2
  · exact absurd h1 (catClean_spec q.1 hcat).2.1
  · rcases List.mem_cons.1 h2 with h3 | h4
    · exact absurd h3 (by decide)
    · exact absurd (intToChars_digits q.2 hnn '|' h4) (by decide)

theorem gaStep_token_nonneg (refs0 : List (List (List Char × Int)))
    (hsame : SameIdSameCat refs0)
    (hcat : ∀ tl ∈ refs0, ∀ p ∈ tl, catClean p.1 = true)
    (p : List Char × Int) (l2 : List (List Char × Int)) (hmeml : (p :: l2) ∈ refs0)
    (hnn : ∀ q ∈ p :: l2, 0 ≤ q.2)
    (rows : List (List (List Char))) (i : Nat) (outT : List Span)
    (acc : List (Int × (List Char × Nat × Nat))) (hacc : ∀ kv ∈ acc, Prov refs0 kv) :
    gaScan 0 ([encodeLabel (p :: l2)] :: rows) i outT (acc.map toTsvEntry)
      = gaScan 0 rows (i + 1) outT ((raAccRefs i (p :: l2) acc).map toTsvEntry) := by
  have hcatl : ∀ q ∈ p :: l2, catClean q.1 = true := fun q hq => hcat _ hmeml q hq
  have hstarF : hasSub ['*'] (joinChar '|' ((p :: l2).map encodePair)) = false :=
    hasSub_false_of_head_not_mem '*' [] _ (encodeLabel_no_star (p :: l2) hnn hcatl)
  have hnegF : hasSub ['-', '1'] (joinChar '|' ((p :: l2).map encodePair)) = false :=
    hasSub_false_of_head_not_mem '-' ['1'] _ (encodeLabel_no_hyphen (p :: l2) hnn hcatl)
  have hundF : ((joinChar '|' ((p :: l2).map encodePair)) == ['_']) = false :=
    ne_underscore_of_colon _ (encodeLabel_has_colon p l2)
  have hsplit : splitOnChar '|' (joinChar '|' ((p :: l2).map encodePair))
      = (p :: l2).map encodePair := by
    refine splitOnChar_joinChar '|' _ (by simp) ?_
    intro part hpart
    obtain ⟨q, hq, hqe⟩ := List.mem_map.1 hpart
    rw [← hqe]
    exact encodePair_no_pipe q (hnn q hq) (hcatl q hq)
  have hfold : refsFold i ((p :: l2).map encodePair) (acc.map toTsvEntry)
      = some ((raAccRefs i (p :: l2) acc).map toTsvEntry) :=
    refsFold_ra refs0 hsame hcat i (p :: l2) acc
      (fun q hq => ⟨hnn q hq, ⟨p :: l2, hmeml, hq⟩⟩) hacc
  show gaScan 0 ([joinChar '|' ((p :: l2).map encodePair)] :: rows) i outT
      (acc.map toTsvEntry) = _
  rw [gaScan]
  simp only [List.getElem?_cons_zero, hstarF, hundF, hnegF, Bool.false_eq_true, if_false]
  rw [hsplit, hfold]

theorem gaStep_token_sentinel (c : List Char) (hcc : catClean c = true)
    (rows : List (List (List Char))) (i : Nat) (outT : List Span)
    (accT : List (List Char × Span)) :
    gaScan 0 ([encodeLabel [(c, -1)]] :: rows) i outT accT
      = gaScan 0 rows (i + 1) (outT ++ [⟨c, i, i⟩]) accT := by
  have hcol : ':' ∉ c := (catClean_spec c hcc).1
  have hm1 : intToChars (-1) = ['-', '1'] := by decide
  have hlbl : encodeLabel [(c, -1)] = c ++ ':' :: ['-', '1'] := by
    show encodePair (c, -1) = _
    rw [encodePair]
    show c ++ ':' :: intToChars (-1) = _
    rw [hm1]
  have hstarF : hasSub ['*'] (c ++ ':' :: ['-', '1']) = false := by
    refine hasSub_false_of_head_not_mem '*' [] _ ?_
    intro hm
    rcases List.mem_append.1 hm with h1 | h2
    · exact absurd h1 (catClean_spec c hcc).2.2.1
    · rcases List.mem_cons.1 h2 with h3 | h4
      · exact absurd h3 (by decide)
      · rcases List.mem_cons.1 h4 with h5 | h6
        · exact absurd h5 (by decide)
        · rcases List.mem_cons.1 h6 with h7 | h8
          · exact absurd h7 (by decide)
          · exact absurd h8 (List.not_mem_nil '*')
  have hundF : ((c ++ ':' :: ['-', '1']) == ['_']) = false :=
    ne_underscore_of_colon _ (List.mem_append.2 (Or.inr (List.mem_cons_self ':' _)))
  have hnegT : hasSub ['-', '1'] (c ++ ':' :: ['-', '1']) = true := by
    have heq : c ++ ':' :: ['-', '1'] = (c ++ [':']) ++ ['-', '1'] := by simp
    rw [heq]
    exact hasSub_of_suffix ['-', '1'] (c ++ [':'])
  have hidx : indexOfChar? ':' (c ++ ':' :: ['-', '1']) = some c.length :=
    indexOfChar_first ':' c ['-', '1'] hcol
  have htake : (c ++ ':' :: ['-', '1']).take c.length = c := by simp
  rw [hlbl, gaScan]
  simp only [List.getElem?_cons_zero, hstarF, hundF, hnegT, hidx, htake,
    Bool.false_eq_true, if_false, if_true]

theorem tokenWf_cases : ∀ l : List (List Char × Int), tokenWf l = true →
    (∀ p ∈ l, 0 ≤ p.2) ∨ ∃ c, l = [(c, -1)]
  | [], _ => Or.inl (by intro p hp; exact absurd hp (List.not_mem_nil p))
  | [p], h => by
    have h2 : ([p].all (fun r => decide (0 ≤ r.2)) || (p.2 == -1)) = true := h
    rw [Bool.or_eq_true] at h2
    rcases h2 with h3 | h3
    · left
      intro r hr
      rcases List.mem_cons.1 hr with he | hn
      · rw [he]
        exact of_decide_eq_true (List.all_eq_true.1 h3 p (List.mem_cons_self p []))
      · exact absurd hn (List.not_mem_nil r)
    · right
      refine ⟨p.1, ?_⟩
      have hid : p.2 = -1 := eq_of_beq h3
      rcases p with ⟨c, id⟩
      simp only at hid
      rw [hid]
  | p :: q :: l3, h => by
    have h2 : ((p :: q :: l3).all (fun r => decide (0 ≤ r.2)) || false) = true := h
    rw [Bool.or_false] at h2
    left
    intro r hr
    exact of_decide_eq_true (List.all_eq_true.1 h2 r hr)

theorem gaScan_ra (refs0 : List (List (List Char × Int)))
    (hw : ∀ l ∈ refs0, tokenWf l = true)
    (hcat : ∀ l ∈ refs0, ∀ p ∈ l, catClean p.1 = true)
    (hsame : SameIdSameCat refs0) :
    ∀ (suffix : List (List (List Char × Int))), (∀ l ∈ suffix, l ∈ refs0) →
    ∀ (i : Nat) (out : List (List Char × Nat × Nat))
      (acc : List (Int × (List Char × Nat × Nat))),
    (∀ kv ∈ acc, Prov refs0 kv) →
    gaScan 0 (encodeSentence suffix) i (out.map toSpan) (acc.map toTsvEntry)
      = some ((raScan suffix i (out, acc)).1.map toSpan,
              (raScan suffix i (out, acc)).2.map toTsvEntry) := by
  intro suffix
  induction suffix with
  | nil => intro _ i out acc _; rfl
  | cons l rest ih =>
    intro hsub i out acc hacc
    have hmeml : l ∈ refs0 := hsub l (List.mem_cons_self l rest)
    have hrest : ∀ t ∈ rest, t ∈ refs0 := fun t ht => hsub t (List.mem_cons_of_mem l ht)
    have hwl := hw l hmeml
    have hracons : raScan (l :: rest) i (out, acc)
        = raScan rest (i + 1) (raRefs i l (out, acc)) := rfl
    cases l with
    | nil =>
      show gaScan 0 ([['_']] :: encodeSentence rest) i (out.map toSpan)
          (acc.map toTsvEntry) = _
      rw [gaScan]
      have h1 : hasSub ['*'] ['_'] = false := by decide
      have h2 : (['_'] == ['_']) = true := by decide
      simp only [List.getElem?_cons_zero, h1, h2, Bool.false_eq_true, if_false, if_true]
      rw [hracons]
      have hra0 : raRefs i [] (out, acc) = (out, acc) := rfl
      rw [hra0]
      exact ih hrest (i + 1) out acc hacc
    | cons p l2 =>
      have hgen : (∀ q ∈ p :: l2, 0 ≤ q.2) →
          gaScan 0 (encodeSentence ((p :: l2) :: rest)) i (out.map toSpan)
              (acc.map toTsvEntry)
            = some ((raScan ((p :: l2) :: rest) i (out, acc)).1.map toSpan,
                    (raScan ((p :: l2) :: rest) i (out, acc)).2.map toTsvEntry) := by
        intro hnn
        show gaScan 0 ([encodeLabel (p :: l2)] :: encodeSentence rest) i (out.map toSpan)
            (acc.map toTsvEntry) = _
        rw [gaStep_token_nonneg refs0 hsame hcat p l2 hmeml hnn (encodeSentence rest)
          i (out.map toSpan) acc hacc]
        rw [hracons, raRefs_nonneg i (p :: l2) out acc hnn]
        exact ih hrest (i + 1) out (raAccRefs i (p :: l2) acc)
          (raAccRefs_prov refs0 i (p :: l2) acc hacc
            (fun q hq => ⟨hnn q hq, ⟨p :: l2, hmeml, hq⟩⟩))
      rcases tokenWf_cases (p :: l2) hwl with hnn | ⟨c, hform⟩
      · exact hgen hnn
      · have hp2 : p = (c, -1) ∧ l2 = [] := by
          rw [List.cons.injEq] at hform
          exact hform
        obtain ⟨hp, hl2⟩ := hp2
        subst hp
        subst hl2
        have hcc : catClean c = true :=
          hcat [(c, -1)] hmeml (c, -1) (List.mem_cons_self _ [])
        show gaScan 0 ([encodeLabel [(c, -1)]] :: encodeSentence rest) i
            (out.map toSpan) (acc.map toTsvEntry) = _
        rw [gaStep_token_sentinel c hcc (encodeSentence rest) i (out.map toSpan)
          (acc.map toTsvEntry)]
        have hout : out.map toSpan ++ [(⟨c, i, i⟩ : Span)]
            = (out ++ [(c, i, i)]).map toSpan := by
          rw [List.map_append]
          rfl
        rw [hout]
        have hra1 : raRefs i [(c, -1)] (out, acc) = (out ++ [(c, i, i)], acc) := by
          rw [raRefs]
          have hstep : raStep i (out, acc) (c, -1) = (out ++ [(c, i, i)], acc) := by
            rw [raStep]
            simp
          rw [hstep]
          rfl
        rw [hracons, hra1]
        exact ih hrest (i + 1) (out ++ [(c, i, i)]) acc hacc

theorem get_annotations_encode (refs : List (List (List Char × Int)))
    (hw : ∀ l ∈ refs, tokenWf l = true)
    (hcat : ∀ l ∈ refs, ∀ p ∈ l, catClean p.1 = true)
    (hsame : SameIdSameCat refs) :
    get_annotations (encodeSentence refs) 0 = some ((refAgg refs).map toSpan) := by
  have h := gaScan_ra refs hw hcat hsame refs (fun l hl => hl) 0 [] []
    (fun kv hkv => absurd hkv (List.not_mem_nil kv))
  have h2 : gaScan 0 (encodeSentence refs) 0 [] []
      = some ((raScan refs 0 ([], [])).1.map toSpan,
              (raScan refs 0 ([], [])).2.map toTsvEntry) := h
  rw [get_annotations, h2, Option.map_some', refAgg]
  rcases raScan refs 0 ([], []) with ⟨outr, accr⟩
  simp only [List.map_append, List.map_map]
  rfl

/-- C7 (corrected): the two aggregator call sites agree on equivalent
inputs only under extra preconditions; as frozen the claim is false (see
the counterexample) because the simplified-row accumulator is keyed by the
annotation text and the object-model accumulator by the id, and because a
sentinel reference sharing its token's label with other references
collapses that label in the row aggregator.  Under the preconditions that
every token carries either one lone sentinel reference or only
non-negative ids, that categories avoid the characters colon, pipe, star
and hyphen, and that within the stream one id always carries one category,
the two call sites produce the same ordered (category, start, end)
triples, both equal to the shared reference aggregation refAgg. -/
theorem c7_call_sites_equivalence (refs : List (List (List Char × Int))) (a : List Char)
    (hw : ∀ l ∈ refs, tokenWf l = true)
    (hcat : ∀ l ∈ refs, ∀ p ∈ l, catClean p.1 = true)
    (hsame : SameIdSameCat refs) :
    (get_annotations (encodeSentence refs) 0).map
        (fun sl => sl.map (fun sp => (sp.category, (sp.start : Int), (sp.stop : Int))))
      = some ((Sentence.get_annotations (mkSentence a refs) a).map
          (fun an => (an.category, an.start, an.stop))) ∧
    get_annotations (encodeSentence refs) 0 = some ((refAgg refs).map toSpan) ∧
    Sentence.get_annotations (mkSentence a refs) a = (refAgg refs).map toAnn := by
  refine ⟨?_, get_annotations_encode refs hw hcat hsame, mk_get_annotations_ra a refs⟩
  rw [get_annotations_encode refs hw hcat hsame, mk_get_annotations_ra a refs,
    Option.map_some']
  congr 1
  rw [List.map_map, List.map_map]
  rfl

/-- Closed witness for C7's amended statement on a stream with one
sentinel token and one shared two-reference token. -/
theorem c7_call_sites_equivalence_witness :
    (∀ l ∈ [[(("C".toList), (-1 : Int))], [("A".toList, 0), ("B".toList, 1)],
        [("A".toList, 0)]], tokenWf l = true) ∧
    SameIdSameCat [[(("C".toList), (-1 : Int))], [("A".toList, 0), ("B".toList, 1)],
        [("A".toList, 0)]] ∧
    (get_annotations (encodeSentence [[(("C".toList), (-1 : Int))],
        [("A".toList, 0), ("B".toList, 1)], [("A".toList, 0)]]) 0).map
        (fun sl => sl.map (fun sp => (sp.category, (sp.start : Int), (sp.stop : Int))))
      = some ((Sentence.get_annotations (mkSentence ("ann".toList)
          [[(("C".toList), (-1 : Int))], [("A".toList, 0), ("B".toList, 1)],
            [("A".toList, 0)]]) ("ann".toList)).map
          (fun an => (an.category, an.start, an.stop))) :=
  ⟨by decide, by unfold SameIdSameCat; decide,
    (c7_call_sites_equivalence _ ("ann".toList) (by decide) (by decide)
      (by unfold SameIdSameCat; decide)).1⟩
